import Mathlib

/-!
# Verification of the saba-book-impl parsing core

This development shallowly embeds the four source files of the repository
(`src/saba_core/src/url.rs`, `src/saba_core/src/http.rs`,
`src/saba_core/src/renderer/html/attribute.rs`,
`src/saba_core/src/renderer/html/parser.rs`) and proves or refutes the
frozen claims about them.

Modelling conventions:
* Rust `String`/`&str` values are modelled as `List Char` (the URL/HTTP
  layer) or as Lean `String` (the HTML layer).  Byte-index slicing in the
  source is modelled as character-index slicing; the two agree on ASCII
  input, which covers every concrete input appearing below.
* Rust functions that can `panic!` (out-of-range indexing, failed
  assertions) are modelled with an explicit `panic` outcome; functions
  returning `Result` are modelled with `ok`/`err` outcomes.
* The reference-counted mutable DOM (`Rc<RefCell<Node>>`) is modelled as an
  arena: a list of nodes addressed by their creation index, with every
  owning or weak link stored as an `Option Nat` index (the representation
  §9 of the spec itself recommends for a reimplementation).
-/

namespace Saba

/-! ## Generic string machinery (models of Rust `str` methods) -/

/-- Model of Rust `str::split_once(c)`: split at the first occurrence of the
character `c`, returning the parts before and after it, or `none` when `c`
does not occur. -/
def splitOnceChar (c : Char) : List Char → Option (List Char × List Char)
  | [] => none
  | x :: xs =>
    if x = c then some ([], xs)
    else (splitOnceChar c xs).map (fun p => (x :: p.1, p.2))

/-- Model of Rust `str::split_once(sep)` for a non-empty separator string:
split at the first occurrence of `sep`. -/
def splitOnceStr (sep : List Char) : List Char → Option (List Char × List Char)
  | [] => none
  | x :: xs =>
    if sep.isPrefixOf (x :: xs) then some ([], (x :: xs).drop sep.length)
    else (splitOnceStr sep xs).map (fun p => (x :: p.1, p.2))

/-- Model of Rust `str::split(c)` for a one-character separator: all pieces,
empty pieces included. -/
def splitAllChar (c : Char) : List Char → List (List Char)
  | [] => [[]]
  | x :: xs =>
    match splitAllChar c xs with
    | [] => [[]]
    | h :: t => if x = c then [] :: h :: t else (x :: h) :: t

/-- Model of Rust `str::splitn(2, c)`: at most two pieces, split at the
first occurrence of `c`. -/
def splitN2Char (c : Char) (l : List Char) : List (List Char) :=
  match splitOnceChar c l with
  | some (a, b) => [a, b]
  | none => [l]

/-- Model of Rust `str::trim_start` (restricted to ASCII whitespace). -/
def trimStart (l : List Char) : List Char := l.dropWhile Char.isWhitespace

/-- Model of Rust `str::trim` (restricted to ASCII whitespace). -/
def trimC (l : List Char) : List Char :=
  ((l.dropWhile Char.isWhitespace).reverse.dropWhile Char.isWhitespace).reverse

/-- Model of Rust `str::find(c)`: index of the first occurrence of `c`. -/
def idxOfChar (c : Char) : List Char → Option Nat
  | [] => none
  | x :: xs => if x = c then some 0 else (idxOfChar c xs).map (· + 1)

/-- Model of Rust `str::find(sep)` for a non-empty separator string: index
of the first occurrence of `sep`. -/
def idxOfStr (sep : List Char) : List Char → Option Nat
  | [] => none
  | x :: xs =>
    if sep.isPrefixOf (x :: xs) then some 0 else (idxOfStr sep xs).map (· + 1)

/-- Model of `str::replace("\n\r", "\n")`: left-to-right, non-overlapping. -/
def replaceNlCr : List Char → List Char
  | '\n' :: '\r' :: rest => '\n' :: replaceNlCr rest
  | c :: rest => c :: replaceNlCr rest
  | [] => []

/-- Numeric value of a list of decimal digits (most significant first). -/
def digitsToNat (l : List Char) : Nat :=
  l.foldl (fun acc c => acc * 10 + (c.toNat - '0'.toNat)) 0

/-- Model of Rust `u32::from_str` (`"...".parse::<u32>()`): an optional
leading `+`, then one or more ASCII digits, value at most `2^32 - 1`. -/
def parseU32 (l : List Char) : Option Nat :=
  let l' := match l with
    | '+' :: rest => rest
    | _ => l
  if l' ≠ [] ∧ l'.all Char.isDigit ∧ digitsToNat l' < 2 ^ 32 then
    some (digitsToNat l')
  else none

/-! ## URL layer (`src/saba_core/src/url.rs`) -/

/-- The `Url` struct of `url.rs` (all fields are strings in the source). -/
structure Url where
  url : List Char
  host : List Char
  port : List Char
  path : List Char
  searchpart : List Char
  deriving DecidableEq

/-- Outcome of `Url::new`: `ok`, the `Err` case, or a Rust panic (slice
index out of range). -/
inductive UrlOutcome where
  | ok (u : Url)
  | err (msg : List Char)
  | panic
  deriving DecidableEq

/-- `is_supported_protocol`: the allow-list is `["http"]`, so the check is
`url.starts_with("http://")`. -/
def is_supported_protocol (url : List Char) : Bool :=
  "http://".toList.isPrefixOf url

/-- `remove_scheme`: drop everything up to and including the first `"://"`;
identity when `"://"` does not occur. -/
def remove_scheme (url : List Char) : List Char :=
  match idxOfStr "://".toList url with
  | some i => url.drop (i + 3)
  | none => url

/-- `extract_host`: the part of the scheme-stripped remainder before the
first `/`, truncated at its first `:`. -/
def extract_host (url : List Char) : List Char :=
  let scheme_removed := remove_scheme url
  match idxOfChar '/' scheme_removed with
  | some path_start =>
    (splitAllChar ':' (scheme_removed.take path_start)).headD []
  | none => (splitAllChar ':' scheme_removed).headD []

/-- `extract_port`: when the remainder has a `:` at index `i`, slice
`a[0][i+1..]` where `a[0]` is the part before the first `/`; this panics
(`none`) when `i + 1` exceeds `a[0].len()`, i.e. when the first `:` comes
after the first `/`.  Without any `:` the port is `"80"`. -/
def extract_port (url : List Char) : Option (List Char) :=
  let scheme_removed := remove_scheme url
  match idxOfChar ':' scheme_removed with
  | some index =>
    let a0 := (splitN2Char '/' scheme_removed).headD []
    if index + 1 ≤ a0.length then some (a0.drop (index + 1)) else none
  | none => some "80".toList

/-- `extract_path`: the part after the first `/` of the scheme-stripped
remainder, truncated at its first `?`; empty when there is no `/`. -/
def extract_path (url : List Char) : List Char :=
  let scheme_removed := remove_scheme url
  let url_parts := splitN2Char '/' scheme_removed
  match url_parts with
  | [_, rest] => (splitN2Char '?' rest).headD []
  | _ => []

/-- `extract_searchpart`: the part of the whole URL after the first `?`;
empty when there is no `?`. -/
def extract_searchpart (url : List Char) : List Char :=
  match splitN2Char '?' url with
  | [_, rest] => rest
  | _ => []

/-- `Url::new`: scheme check, then the four extractors.  Only
`extract_port` can panic; the others are total. -/
def Url.new (url : List Char) : UrlOutcome :=
  if ¬ is_supported_protocol url then .err "Invalid scheme.".toList
  else
    match extract_port url with
    | none => .panic
    | some port =>
      .ok { url := url
            host := extract_host url
            port := port
            path := extract_path url
            searchpart := extract_searchpart url }

/-! ## HTTP layer (`src/saba_core/src/http.rs`) -/

/-- The `Header` struct of `http.rs`. -/
structure Header where
  name : List Char
  value : List Char
  deriving DecidableEq

/-- `Header::new`. -/
def Header.new (name value : List Char) : Header := ⟨name, value⟩

/-- The `HttpResponse` struct of `http.rs`. -/
structure HttpResponse where
  version : List Char
  status_code : Nat
  reason : List Char
  headers : List Header
  body : List Char
  deriving DecidableEq

/-- Outcome of `HttpResponse::new`: `ok`, the `Err(Error::Network ..)` case,
or a Rust panic (out-of-range indexing `splitted[1]`, `statuses[1]`,
`statuses[2]`). -/
inductive HttpOutcome where
  | ok (r : HttpResponse)
  | err (msg : List Char)
  | panic
  deriving DecidableEq

/-- The header loop of `HttpResponse::new`: each line is split at its first
`:` into `splitted`; `splitted[1]` panics (`none`) when the line has no
`:`. -/
def parseHeaderLines (lines : List (List Char)) : Option (List Header) :=
  match lines with
  | [] => some []
  | line :: rest =>
    match splitN2Char ':' line with
    | [a, b] =>
      (parseHeaderLines rest).map (fun hs => Header.new (trimC a) (trimC b) :: hs)
    | _ => none

/-- The `Ok(Self { .. })` tail of `HttpResponse::new` (lines 38-46):
version/status/reason are the space-separated fields 0/1/2 of the status
line (`statuses[1]`/`statuses[2]` panic when there are fewer than three
fields); a status field that does not parse as `u32` falls back to 404. -/
def mkResponse (status_line : List Char) (headers : List Header) (body : List Char) :
    HttpOutcome :=
  let statuses := splitAllChar ' ' status_line
  match statuses.get? 1, statuses.get? 2 with
  | some f1, some f2 =>
    .ok { version := statuses.headD []
          status_code := (parseU32 f1).getD 404
          reason := f2
          headers := headers
          body := body }
  | _, _ => .panic

/-- `HttpResponse::new`: trim the start, replace `"\n\r"` by `"\n"`, split
the status line off at the first `"\n"` (no newline at all is the `Err`
case), split headers from body at the first `"\n\n"` (no separator gives an
empty header list and the whole remainder as body; a header line with no
`:` is an index panic), then build the response via `mkResponse`. -/
def HttpResponse.new (raw_response : List Char) : HttpOutcome :=
  let preprocessed_response := replaceNlCr (trimStart raw_response)
  match splitOnceChar '\n' preprocessed_response with
  | none => .err ("Invalid HTTP response: ".toList ++ preprocessed_response)
  | some (status_line, remaining) =>
    match splitOnceStr "\n\n".toList remaining with
    | some (h, b) =>
      match parseHeaderLines (splitAllChar '\n' h) with
      | none => .panic
      | some headers => mkResponse status_line headers b
    | none => mkResponse status_line [] remaining

/-! ## HTML attributes (`src/saba_core/src/renderer/html/attribute.rs`) -/

/-- The `Attribute` struct of `attribute.rs`: a name and a value string. -/
structure Attribute where
  name : String
  value : String
  deriving DecidableEq

/-- `Attribute::new`: both fields empty. -/
def Attribute.new : Attribute := ⟨"", ""⟩

/-- `Attribute::add_char`: push the character onto the name or the value,
selected by the discriminator flag. -/
def Attribute.add_char (a : Attribute) (c : Char) (is_name : Bool) : Attribute :=
  match is_name with
  | true => { a with name := a.name.push c }
  | false => { a with value := a.value.push c }

/-! ## Token and node model

The files `renderer/html/token.rs` and `renderer/dom/node.rs` of the
repository are not under `src/`; the definitions below are modelled from
the spec (§3, §4.1, §4.2), which describes them. -/

/-- Modelled from the spec: the `HtmlToken` tagged union produced by the
Tokenizer (`token.rs`, not under `src/`): a literal character, a start tag
with attributes and a self-closing flag, an end tag, or the terminal
`Eof`. -/
inductive HtmlToken where
  | char (c : Char)
  | startTag (tag : String) (self_closing : Bool) (attributes : List Attribute)
  | endTag (tag : String)
  | eof
  deriving DecidableEq

/-- Modelled from the spec: the `ElementKind` enum (`node.rs`, not under
`src/`), listed in §3 as `Html, Head, Body, Style, Script, P, H1, H2, A,
Text, …` with unrecognized tags a distinct outcome. -/
inductive ElementKind where
  | html
  | head
  | body
  | style
  | script
  | p
  | h1
  | h2
  | a
  | text
  deriving DecidableEq

/-- Modelled from the spec: `ElementKind::from_str`, the pure total mapping
from tag-name string to kind; `none` models the `Err` (unrecognized)
outcome. -/
def ElementKind.from_str (tag : String) : Option ElementKind :=
  if tag = "html" then some .html
  else if tag = "head" then some .head
  else if tag = "body" then some .body
  else if tag = "style" then some .style
  else if tag = "script" then some .script
  else if tag = "p" then some .p
  else if tag = "h1" then some .h1
  else if tag = "h2" then some .h2
  else if tag = "a" then some .a
  else if tag = "text" then some .text
  else none

/-- Modelled from the spec: the `Element` payload of an element node: tag
name and attribute list (`node.rs`, not under `src/`). -/
structure Element where
  tag : String
  attributes : List Attribute
  deriving DecidableEq

/-- Modelled from the spec: the `NodeKind` tagged union over
`{Document, Element, Text(string)}` (`node.rs`, not under `src/`). -/
inductive NodeKind where
  | document
  | element (e : Element)
  | text (s : String)
  deriving DecidableEq

/-- Modelled from the spec: a DOM node with its five link fields.  The
source's `Rc<RefCell<Node>>`/`Weak<RefCell<Node>>` references are
represented as arena indices (`Option Nat`), the representation §9 of the
spec recommends; owning and weak links both become plain indices. -/
structure Node where
  kind : NodeKind
  parent : Option Nat := none
  first_child : Option Nat := none
  last_child : Option Nat := none
  next_sibling : Option Nat := none
  previous_sibling : Option Nat := none
  deriving DecidableEq

instance : Inhabited Node := ⟨{ kind := .document }⟩

/-- Modelled from the spec: `Node::element_kind`, the derived kind of an
element node; `none` for non-element nodes and unrecognized tags. -/
def Node.element_kind (n : Node) : Option ElementKind :=
  match n.kind with
  | .element e => ElementKind.from_str e.tag
  | _ => none

/-! ## Tokenizer (`src/saba_core/src/renderer/html/token.rs`, not under
`src/`; modelled from spec §4.1) -/

/-- Modelled from the spec: the lexical states of the tokenizer
(§4.1). -/
inductive TokState where
  | data
  | tagOpen
  | tagName
  | beforeAttributeName
  | attributeName
  | attributeValue
  | selfClosingStartTag
  deriving DecidableEq

/-- Modelled from the spec: the tag under construction — name, end-tag
flag, self-closing flag, completed attributes, and the attribute currently
being accumulated. -/
structure TagBuf where
  tag : String
  is_end : Bool
  self_closing : Bool
  attributes : List Attribute
  cur : Option Attribute
  deriving DecidableEq

/-- An empty tag buffer. -/
def TagBuf.empty : TagBuf := ⟨"", false, false, [], none⟩

/-- Push a character onto the pending attribute's name. -/
def TagBuf.pushCurName (b : TagBuf) (c : Char) : TagBuf :=
  { b with cur := some ((b.cur.getD Attribute.new).add_char c true) }

/-- Push a character onto the pending attribute's value. -/
def TagBuf.pushCurValue (b : TagBuf) (c : Char) : TagBuf :=
  { b with cur := some ((b.cur.getD Attribute.new).add_char c false) }

/-- Move the pending attribute (if any) into the completed list. -/
def TagBuf.finishAttr (b : TagBuf) : TagBuf :=
  match b.cur with
  | some at1 => { b with attributes := b.attributes ++ [at1], cur := none }
  | none => b

/-- Emit the accumulated tag: an `EndTag` carries only the name; a
`StartTag` carries the attributes accumulated so far, the pending attribute
included. -/
def TagBuf.emit (b : TagBuf) : HtmlToken :=
  if b.is_end then .endTag b.tag
  else .startTag b.tag b.self_closing (b.finishAttr).attributes

/-- Whitespace as the tokenizer sees it. -/
def isWsTok (c : Char) : Bool := c = ' ' ∨ c = '\t' ∨ c = '\n'

/-- Modelled from the spec: the tokenizer state machine of §4.1, one
character per step.  End of input yields `Eof` in every state (graceful
degradation mid-tag); in `TagOpen` a `/` begins an end tag, a letter begins
a start-tag name, and any other character falls back to `Data` (the spec
fixes only the letter and `/` transitions); `>` in any attribute state
finalizes and emits the tag. -/
def tokenizeLoop (state : TokState) (buf : TagBuf) : List Char → List HtmlToken
  | [] => [.eof]
  | c :: cs =>
    match state with
    | .data =>
      if c = '<' then tokenizeLoop .tagOpen TagBuf.empty cs
      else .char c :: tokenizeLoop .data buf cs
    | .tagOpen =>
      if c = '/' then tokenizeLoop .tagName { TagBuf.empty with is_end := true } cs
      else if c.isAlpha then tokenizeLoop .tagName { TagBuf.empty with tag := String.mk [c] } cs
      else .char c :: tokenizeLoop .data TagBuf.empty cs
    | .tagName =>
      if isWsTok c then tokenizeLoop .beforeAttributeName buf cs
      else if c = '/' then tokenizeLoop .selfClosingStartTag buf cs
      else if c = '>' then buf.emit :: tokenizeLoop .data TagBuf.empty cs
      else tokenizeLoop .tagName { buf with tag := buf.tag.push c } cs
    | .beforeAttributeName =>
      if isWsTok c then tokenizeLoop .beforeAttributeName buf cs
      else if c = '>' then buf.emit :: tokenizeLoop .data TagBuf.empty cs
      else if c = '/' then tokenizeLoop .selfClosingStartTag buf cs
      else tokenizeLoop .attributeName (buf.pushCurName c) cs
    | .attributeName =>
      if c = '=' then tokenizeLoop .attributeValue buf cs
      else if isWsTok c then tokenizeLoop .beforeAttributeName buf.finishAttr cs
      else if c = '>' then buf.emit :: tokenizeLoop .data TagBuf.empty cs
      else if c = '/' then tokenizeLoop .selfClosingStartTag buf cs
      else tokenizeLoop .attributeName (buf.pushCurName c) cs
    | .attributeValue =>
      if isWsTok c then tokenizeLoop .beforeAttributeName buf.finishAttr cs
      else if c = '>' then buf.emit :: tokenizeLoop .data TagBuf.empty cs
      else tokenizeLoop .attributeValue (buf.pushCurValue c) cs
    | .selfClosingStartTag =>
      if c = '>' then ({ buf with self_closing := true }).emit :: tokenizeLoop .data TagBuf.empty cs
      else tokenizeLoop .attributeName (buf.pushCurName c) cs

/-- Modelled from the spec: the full token sequence for an input string,
always terminated by `Eof`. -/
def tokenize (s : String) : List HtmlToken :=
  tokenizeLoop .data TagBuf.empty s.toList

/-! ## Tree constructor (`src/saba_core/src/renderer/html/parser.rs`) -/

/-- The `InsertionMode` enum of `parser.rs`. -/
inductive InsertionMode where
  | initial
  | beforeHtml
  | beforeHead
  | inHead
  | afterHead
  | inBody
  | text
  | afterBody
  | afterAfterBody
  deriving DecidableEq

/-- The state of `HtmlParser`: the window's node arena (index 0 is the
`Document` created by `Window::new`), the two insertion modes, and the
stack of open elements (top of stack first, as indices). -/
structure ParserState where
  nodes : List Node
  mode : InsertionMode
  original_insertion_mode : InsertionMode
  stack_of_open_elements : List Nat
  deriving DecidableEq

/-- The next-sibling link of node `i`, or nothing when `i` is out of range
or has no next sibling. -/
def chainNext (nodes : List Node) (i : Nat) : Option Nat :=
  (nodes.get? i).bind Node.next_sibling

/-- The walk of `insert_element` (`parser.rs` lines 318-329): follow
`next_sibling` from `i` until a node with no next sibling; `fuel` bounds
the walk (the arena size suffices since links always point forward). -/
def last_sibling (nodes : List Node) : Nat → Nat → Nat
  | 0, i => i
  | fuel + 1, i =>
    match chainNext nodes i with
    | some j => last_sibling nodes fuel j
    | none => i

/-- `create_element_node`. -/
def create_element_node (tag : String) (attributes : List Attribute) : Node :=
  { kind := .element ⟨tag, attributes⟩ }

/-- `create_char_node`: a text node holding the one-character string. -/
def create_char_node (c : Char) : Node :=
  { kind := .text (String.mk [c]) }

/-- `HtmlParser::insert_element`: the current open element is the top of
the stack, or the `Document` (index 0) when the stack is empty.  If it has
no first child the new node becomes the first child; otherwise the walk to
the last sibling links the new node after it, and the new node's
`previous_sibling` is set to the *first* child (line 332 of the source).
`last_child` and `parent` are then set and the node is pushed. -/
def insert_element (st : ParserState) (tag : String) (attributes : List Attribute) : ParserState :=
  let current := st.stack_of_open_elements.headD 0
  let n := st.nodes.length
  let curNode := st.nodes.getD current default
  match curNode.first_child with
  | some fc =>
    let ls := last_sibling st.nodes st.nodes.length fc
    let lsNode := st.nodes.getD ls default
    let nodes1 := st.nodes.set ls { lsNode with next_sibling := some n }
    let newNode := { create_element_node tag attributes with
                     parent := some current, previous_sibling := some fc }
    let cur1 := nodes1.getD current default
    let nodes2 := nodes1.set current { cur1 with last_child := some n } ++ [newNode]
    { st with nodes := nodes2,
              stack_of_open_elements := n :: st.stack_of_open_elements }
  | none =>
    let newNode := { create_element_node tag attributes with parent := some current }
    let nodes2 := st.nodes.set current { curNode with first_child := some n, last_child := some n }
                    ++ [newNode]
    { st with nodes := nodes2,
              stack_of_open_elements := n :: st.stack_of_open_elements }

/-- `HtmlParser::insert_char`: nothing happens on an empty stack; a current
text node absorbs the character; a bare space or newline with no text node
in place is dropped; otherwise a new text node is created and linked — the
source links it directly as the first child's `next_sibling` (lines
405-413), with no walk to the last sibling. -/
def insert_char (st : ParserState) (c : Char) : ParserState :=
  match st.stack_of_open_elements.head? with
  | none => st
  | some current =>
    let curNode := st.nodes.getD current default
    match curNode.kind with
    | .text s =>
      { st with nodes := st.nodes.set current { curNode with kind := .text (s.push c) } }
    | _ =>
      if c = ' ' ∨ c = '\n' then st
      else
        let n := st.nodes.length
        match curNode.first_child with
        | some fc =>
          let fcNode := st.nodes.getD fc default
          let nodes1 := st.nodes.set fc { fcNode with next_sibling := some n }
          let newNode := { create_char_node c with
                           parent := some current, previous_sibling := some fc }
          let cur1 := nodes1.getD current default
          let nodes2 := nodes1.set current { cur1 with last_child := some n } ++ [newNode]
          { st with nodes := nodes2,
                    stack_of_open_elements := n :: st.stack_of_open_elements }
        | none =>
          let newNode := { create_char_node c with parent := some current }
          let nodes2 := st.nodes.set current { curNode with first_child := some n, last_child := some n }
                          ++ [newNode]
          { st with nodes := nodes2,
                    stack_of_open_elements := n :: st.stack_of_open_elements }

/-- The element kind of the node at arena index `i`. -/
def element_kind_at (nodes : List Node) (i : Nat) : Option ElementKind :=
  match nodes.get? i with
  | some nd => nd.element_kind
  | none => none

/-- `HtmlParser::pop_current_node`: pop the top of the stack when it has
the given kind; report whether a pop happened. -/
def pop_current_node (st : ParserState) (kind : ElementKind) : Bool × ParserState :=
  match st.stack_of_open_elements with
  | [] => (false, st)
  | i :: rest =>
    if element_kind_at st.nodes i = some kind then
      (true, { st with stack_of_open_elements := rest })
    else (false, st)

/-- `HtmlParser::contain_in_stack`: linear scan for an element of the given
kind. -/
def contain_in_stack (st : ParserState) (kind : ElementKind) : Bool :=
  st.stack_of_open_elements.any (fun i => element_kind_at st.nodes i = some kind)

/-- The pop loop of `pop_until`: discard popped elements until one of the
target kind is popped (or the stack empties). -/
def pop_until_loop (nodes : List Node) (kind : ElementKind) : List Nat → List Nat
  | [] => []
  | i :: rest =>
    if element_kind_at nodes i = some kind then rest
    else pop_until_loop nodes kind rest

/-- `HtmlParser::pop_until`: the `assert!` demands that an element of the
kind is on the stack; `none` models the fatal assertion failure. -/
def pop_until (st : ParserState) (kind : ElementKind) : Option ParserState :=
  if contain_in_stack st kind then
    some { st with
           stack_of_open_elements :=
             pop_until_loop st.nodes kind st.stack_of_open_elements }
  else none

/-- One dispatch of `construct_tree`'s loop body: continue (with the given
remaining token list — unchanged when the token is not consumed), return
the window, or hit a fatal assertion. -/
inductive StepResult where
  | cont (st : ParserState) (tokens : List HtmlToken)
  | done (st : ParserState)
  | fatal
  deriving DecidableEq

/-- The dispatch on `(mode, token)` of `HtmlParser::construct_tree`
(`parser.rs` lines 33-302), one loop iteration.  `rest` is the token list
after `tok`; a branch that does not call `self.t.next()` continues with
`tok :: rest`. -/
def step (st : ParserState) (tok : HtmlToken) (rest : List HtmlToken) : StepResult :=
  match st.mode with
  | .initial =>
    match tok with
    | .char _ => .cont st rest
    | _ => .cont { st with mode := .beforeHtml } (tok :: rest)
  | .beforeHtml =>
    match tok with
    | .char c =>
      if c = ' ' ∨ c = '\n' then .cont st rest
      else .cont { insert_element st "html" [] with mode := .beforeHead } (tok :: rest)
    | .startTag tag _ attrs =>
      if tag = "html" then
        .cont { insert_element st tag attrs with mode := .beforeHead } rest
      else .cont { insert_element st "html" [] with mode := .beforeHead } (tok :: rest)
    | .endTag _ =>
      .cont { insert_element st "html" [] with mode := .beforeHead } (tok :: rest)
    | .eof => .done st
  | .beforeHead =>
    match tok with
    | .char c =>
      if c = ' ' ∨ c = '\n' then .cont st rest
      else .cont { insert_element st "head" [] with mode := .inHead } (tok :: rest)
    | .startTag tag _ attrs =>
      if tag = "head" then
        .cont { insert_element st tag attrs with mode := .inHead } rest
      else .cont { insert_element st "head" [] with mode := .inHead } (tok :: rest)
    | .endTag _ =>
      .cont { insert_element st "head" [] with mode := .inHead } (tok :: rest)
    | .eof => .done st
  | .inHead =>
    match tok with
    | .char c =>
      if c = ' ' ∨ c = '\n' then .cont (insert_char st c) rest
      else .cont st rest
    | .startTag tag _ attrs =>
      if tag = "style" ∨ tag = "script" then
        .cont { insert_element st tag attrs with
                original_insertion_mode := st.mode, mode := .text } rest
      else if tag = "body" then
        match pop_until st .head with
        | some st1 => .cont { st1 with mode := .afterHead } (tok :: rest)
        | none => .fatal
      else
        match ElementKind.from_str tag with
        | some _ =>
          match pop_until st .head with
          | some st1 => .cont { st1 with mode := .afterHead } (tok :: rest)
          | none => .fatal
        | none => .cont st rest
    | .endTag tag =>
      if tag = "head" then
        match pop_until st .head with
        | some st1 => .cont { st1 with mode := .afterHead } rest
        | none => .fatal
      else .cont st rest
    | .eof => .done st
  | .afterHead =>
    match tok with
    | .char c =>
      if c = ' ' ∨ c = '\n' then .cont (insert_char st c) rest
      else .cont { insert_element st "body" [] with mode := .inBody } (tok :: rest)
    | .startTag tag _ attrs =>
      if tag = "body" then
        .cont { insert_element st tag attrs with mode := .inBody } rest
      else .cont { insert_element st "body" [] with mode := .inBody } (tok :: rest)
    | .endTag _ =>
      .cont { insert_element st "body" [] with mode := .inBody } (tok :: rest)
    | .eof => .done st
  | .inBody =>
    match tok with
    | .startTag tag _ attrs =>
      if tag = "p" ∨ tag = "h1" ∨ tag = "h2" ∨ tag = "a" then
        .cont (insert_element st tag attrs) rest
      else .cont st rest
    | .endTag tag =>
      if tag = "body" then
        let st1 := { st with mode := .afterBody }
        if ¬ contain_in_stack st1 .body then .cont st1 rest
        else
          match pop_until st1 .body with
          | some st2 => .cont st2 rest
          | none => .fatal
      else if tag = "html" then
        match pop_current_node st .body with
        | (true, st1) =>
          let st2 := { st1 with mode := .afterBody }
          match pop_current_node st2 .html with
          | (true, st3) => .cont st3 (tok :: rest)
          | (false, _) => .fatal
        | (false, _) => .cont st rest
      else if tag = "p" ∨ tag = "h1" ∨ tag = "h2" ∨ tag = "a" then
        match ElementKind.from_str tag with
        | some kind =>
          match pop_until st kind with
          | some st1 => .cont st1 rest
          | none => .fatal
        | none => .fatal
      else .cont st rest
    | .char c => .cont (insert_char st c) rest
    | .eof => .done st
  | .text =>
    match tok with
    | .eof => .done st
    | .endTag tag =>
      if tag = "style" then
        match pop_until st .style with
        | some st1 => .cont { st1 with mode := st.original_insertion_mode } rest
        | none => .fatal
      else if tag = "script" then
        match pop_until st .script with
        | some st1 => .cont { st1 with mode := st.original_insertion_mode } rest
        | none => .fatal
      else .cont { st with mode := st.original_insertion_mode } (tok :: rest)
    | .char c => .cont (insert_char st c) rest
    | .startTag _ _ _ => .cont { st with mode := st.original_insertion_mode } (tok :: rest)
  | .afterBody =>
    match tok with
    | .char _ => .cont st rest
    | .endTag tag =>
      if tag = "html" then .cont { st with mode := .afterAfterBody } rest
      else .cont { st with mode := .inBody } (tok :: rest)
    | .startTag _ _ _ => .cont { st with mode := .inBody } (tok :: rest)
    | .eof => .done st
  | .afterAfterBody =>
    match tok with
    | .char _ => .cont st rest
    | .eof => .done st
    | _ => .cont { st with mode := .inBody } (tok :: rest)

/-- Outcome of `construct_tree`: the returned window (its state), a fatal
assertion, or fuel exhaustion (never reached for the inputs below). -/
inductive ParseOutcome where
  | ok (st : ParserState)
  | fatal
  | outOfFuel
  deriving DecidableEq

/-- The `while token.is_some()` loop of `construct_tree`: an exhausted
token source returns the window. -/
def construct_tree_loop : Nat → ParserState → List HtmlToken → ParseOutcome
  | 0, _, _ => .outOfFuel
  | fuel + 1, st, tokens =>
    match tokens with
    | [] => .ok st
    | tok :: rest =>
      match step st tok rest with
      | .cont st1 tokens1 => construct_tree_loop fuel st1 tokens1
      | .done st1 => .ok st1
      | .fatal => .fatal

/-- `HtmlParser::new` with a fresh `Window`: a lone `Document` node, mode
`Initial`, empty stack. -/
def initialState : ParserState :=
  { nodes := [{ kind := .document }]
    mode := .initial
    original_insertion_mode := .initial
    stack_of_open_elements := [] }

/-- `construct_tree` on a token sequence, with fuel amply covering the
bounded number of non-consuming mode transitions per token. -/
def construct_tree (tokens : List HtmlToken) : ParseOutcome :=
  construct_tree_loop (20 * tokens.length + 20) initialState tokens

/-- Tokenize then parse, the composition the repository's tests use. -/
def parseHtml (s : String) : ParseOutcome :=
  construct_tree (tokenize s)

/-- Whether a parse returned a window (as opposed to aborting). -/
def outcomeOk : ParseOutcome → Bool
  | .ok _ => true
  | _ => false

/-- The node arena of a returned window (empty for an aborted parse). -/
def outcomeNodes : ParseOutcome → List Node
  | .ok st => st.nodes
  | _ => []

/-- The open-element stack of a returned window. -/
def outcomeStack : ParseOutcome → List Nat
  | .ok st => st.stack_of_open_elements
  | _ => []

/-- Reference definition following the spec's words for `insert_char`
("create a new Text node, link and push it following the same
sibling-append algorithm as element insertion"): identical to
`insert_char` except that the new text node is linked after the last
sibling found by walking the chain from the first child, exactly as
`insert_element` does.  Used to compare the source's `insert_char` against
the spec's description. -/
def insert_char_spec (st : ParserState) (c : Char) : ParserState :=
  match st.stack_of_open_elements.head? with
  | none => st
  | some current =>
    let curNode := st.nodes.getD current default
    match curNode.kind with
    | .text s =>
      { st with nodes := st.nodes.set current { curNode with kind := .text (s.push c) } }
    | _ =>
      if c = ' ' ∨ c = '\n' then st
      else
        let n := st.nodes.length
        match curNode.first_child with
        | some fc =>
          let ls := last_sibling st.nodes st.nodes.length fc
          let lsNode := st.nodes.getD ls default
          let nodes1 := st.nodes.set ls { lsNode with next_sibling := some n }
          let newNode := { create_char_node c with
                           parent := some current, previous_sibling := some fc }
          let cur1 := nodes1.getD current default
          let nodes2 := nodes1.set current { cur1 with last_child := some n } ++ [newNode]
          { st with nodes := nodes2,
                    stack_of_open_elements := n :: st.stack_of_open_elements }
        | none =>
          let newNode := { create_char_node c with parent := some current }
          let nodes2 := st.nodes.set current { curNode with first_child := some n, last_child := some n }
                          ++ [newNode]
          { st with nodes := nodes2,
                    stack_of_open_elements := n :: st.stack_of_open_elements }

/-- The current open element of `insert_char` has at most one child:
either no first child, or a first child with no next sibling. -/
def atMostOneChild (st : ParserState) : Bool :=
  match st.stack_of_open_elements.head? with
  | none => true
  | some current =>
    match (st.nodes.getD current default).first_child with
    | none => true
    | some fc => (chainNext st.nodes fc).isNone

/-! ## Sibling-chain predicates (for the structural invariant claims) -/

/-- Walking `next_sibling` from `i` arrives at `j` in finitely many
steps. -/
inductive Reaches (nodes : List Node) : Nat → Nat → Prop
  | refl (i : Nat) : Reaches nodes i i
  | step {i j k : Nat} :
      chainNext nodes i = some j → Reaches nodes j k → Reaches nodes i k

/-- Sibling links always point forward in the arena (a node created later)
and stay in range. -/
def NextIncr (nodes : List Node) : Prop :=
  ∀ i j, chainNext nodes i = some j → i < j ∧ j < nodes.length

/-- First-child links stay in range. -/
def FirstLt (nodes : List Node) : Prop :=
  ∀ i nd c, nodes.get? i = some nd → nd.first_child = some c → c < nodes.length

/-- The spec's chain invariant: from a node's `first_child`, walking
`next_sibling` reaches exactly the node referenced by `last_child` and no
further; a node with no first child has no last child. -/
def ChainOk (nodes : List Node) : Prop :=
  ∀ i nd, nodes.get? i = some nd →
    (∀ c, nd.first_child = some c →
      ∃ l, nd.last_child = some l ∧ Reaches nodes c l ∧ chainNext nodes l = none) ∧
    (nd.first_child = none → nd.last_child = none)

/-- Every node on a parent's sibling chain points back to that parent. -/
def ParentChain (nodes : List Node) : Prop :=
  ∀ q nq c, nodes.get? q = some nq → nq.first_child = some c →
    ∀ x, Reaches nodes c x → ∃ nx, nodes.get? x = some nx ∧ nx.parent = some q

/-- Every set `previous_sibling` designates the parent's first child (the
actual behaviour of both insertion paths of the source). -/
def PrevOk (nodes : List Node) : Prop :=
  ∀ j nj p, nodes.get? j = some nj → nj.previous_sibling = some p →
    ∃ q nq, nj.parent = some q ∧ nodes.get? q = some nq ∧ nq.first_child = some p

/-- A first child has no `previous_sibling`. -/
def FirstPrevNone (nodes : List Node) : Prop :=
  ∀ q nq c nc, nodes.get? q = some nq → nq.first_child = some c →
    nodes.get? c = some nc → nc.previous_sibling = none

/-- Parent links point backward in the arena (to an older node). -/
def ParentLt (nodes : List Node) : Prop :=
  ∀ i nd q, nodes.get? i = some nd → nd.parent = some q → q < i

/-- The structural invariant `construct_tree` maintains. -/
def Inv (st : ParserState) : Prop :=
  NextIncr st.nodes ∧ FirstLt st.nodes ∧ ChainOk st.nodes ∧ ParentChain st.nodes ∧
  PrevOk st.nodes ∧ FirstPrevNone st.nodes ∧ ParentLt st.nodes ∧
  (∀ i ∈ st.stack_of_open_elements, i < st.nodes.length) ∧ 0 < st.nodes.length

/-! ## Claim-side reference extractors (the claims' own words, for the URL
and HTTP refinement statements) -/

/-- The first line of a preprocessed response, per the claim's words. -/
def specFirstLine (l : List Char) : List Char := l.takeWhile (· ≠ '\n')

/-- The text after the first newline. -/
def specAfterFirstLine (l : List Char) : List Char := (l.dropWhile (· ≠ '\n')).tail

/-- A header line read per the claim's words: name before the first `:`,
value after it, both trimmed. -/
def specHeader (line : List Char) : Header :=
  ⟨trimC (line.takeWhile (· ≠ ':')), trimC ((line.dropWhile (· ≠ ':')).tail)⟩

/-- The remainder of a URL after the scheme prefix `http://`. -/
def urlRemainder (url : List Char) : List Char := url.drop 7

/-- The authority part: the remainder up to the first `/`. -/
def urlAuthority (url : List Char) : List Char :=
  (urlRemainder url).takeWhile (· ≠ '/')

/-- Host per the claim's words: the remainder before the first `/` and
before any `:`. -/
def urlHostSpec (url : List Char) : List Char :=
  (urlAuthority url).takeWhile (· ≠ ':')

/-- Port per the claim's words: the text after `:` in the authority part,
or `80` when there is no `:`. -/
def urlPortSpec (url : List Char) : List Char :=
  if (urlAuthority url).any (· = ':') then ((urlAuthority url).dropWhile (· ≠ ':')).tail
  else "80".toList

/-- Path per the claim's words: the text between the first `/` and the
first `?` after it; empty without a `/`. -/
def urlPathSpec (url : List Char) : List Char :=
  if (urlRemainder url).any (· = '/') then
    (((urlRemainder url).dropWhile (· ≠ '/')).tail).takeWhile (· ≠ '?')
  else []

/-- Searchpart per the claim's words: the text after the first `?`. -/
def urlSearchSpec (url : List Char) : List Char :=
  if url.any (· = '?') then (url.dropWhile (· ≠ '?')).tail else []

/-! # Theorems -/

/-! ## Small helper lemmas -/

/-- A node with no next sibling is its own last sibling, whatever the
fuel. -/
theorem last_sibling_none {nodes : List Node} {i : Nat}
    (h : chainNext nodes i = none) (fuel : Nat) : last_sibling nodes fuel i = i := by
  cases fuel with
  | zero => rfl
  | succ f => simp [last_sibling, h]

/-! ## C9: empty input -/

/-- C9: parsing the empty input produces a window whose root is the bare
`Document` node with no children (`first_child` and every other link is
`none`), and nothing else in the arena. -/
theorem claim_C9 :
    parseHtml "" = .ok { nodes := [{ kind := .document }]
                         mode := .beforeHtml
                         original_insertion_mode := .initial
                         stack_of_open_elements := [] } := by decide

/-! ## C8: well-formed minimal document -/

/-- C8: parsing `<html><head></head><body></body></html>` produces exactly
four nodes: the `Document` (index 0) with the html element (index 1) as its
only child (`first_child = last_child = 1`, and node 1 has no next
sibling), the html element with children head (index 2) then body (index
3, reached as head's `next_sibling`), and head and body childless — no
extra html/head/body nodes are synthesized. -/
theorem claim_C8 :
    parseHtml "<html><head></head><body></body></html>" = .ok
      { nodes := [
          { kind := .document, first_child := some 1, last_child := some 1 },
          { kind := .element ⟨"html", []⟩, parent := some 0,
            first_child := some 2, last_child := some 3 },
          { kind := .element ⟨"head", []⟩, parent := some 1, next_sibling := some 3 },
          { kind := .element ⟨"body", []⟩, parent := some 1, previous_sibling := some 2 }]
        mode := .afterAfterBody
        original_insertion_mode := .initial
        stack_of_open_elements := [1] } := by decide

/-! ## C7: Eof returns the tree as built -/

/-- C7: in every insertion mode and for every parser state, an exhausted
token source returns the window immediately, and an `Eof` head token
returns the window with the node arena and open-element stack exactly as
they were — no token is consumed into the tree and no node is inserted. -/
theorem claim_C7 (st : ParserState) (ts : List HtmlToken) (fuel : Nat) (h : 2 ≤ fuel) :
    construct_tree_loop fuel st [] = .ok st ∧
    ∃ st1, construct_tree_loop fuel st (.eof :: ts) = .ok st1 ∧
      st1.nodes = st.nodes ∧ st1.stack_of_open_elements = st.stack_of_open_elements := by
  obtain ⟨k, rfl⟩ : ∃ k, fuel = k + 2 := ⟨fuel - 2, by omega⟩
  refine ⟨rfl, ?_⟩
  cases hm : st.mode
  case initial =>
    exact ⟨{ st with mode := .beforeHtml }, by simp [construct_tree_loop, step, hm], rfl, rfl⟩
  all_goals exact ⟨st, by simp [construct_tree_loop, step, hm], rfl, rfl⟩

/-- Witness for C7 at a concrete state and fuel. -/
theorem claim_C7_witness :
    construct_tree_loop 2 initialState [] = .ok initialState ∧
    ∃ st1, construct_tree_loop 2 initialState [.eof] = .ok st1 ∧
      st1.nodes = initialState.nodes ∧
      st1.stack_of_open_elements = initialState.stack_of_open_elements :=
  claim_C7 initialState [] 2 (by decide)

/-! ## C6: InBody start tags nest under the current open element -/

/-- C6: in `InBody`, a start tag for p/h1/h2/a is handled by
`insert_element` alone — the token is consumed, nothing is popped (the old
stack survives intact under the pushed node), and the new element's parent
is the previous top of stack.  Concretely, parsing
`<html><head></head><body><p><p>` makes the second p (index 5) a child of
the first p (index 4), not its sibling. -/
theorem claim_C6 (st : ParserState) (top : Nat) (rest' : List Nat) (tag : String)
    (sc : Bool) (attrs : List Attribute) (rest : List HtmlToken)
    (hmode : st.mode = .inBody)
    (hstack : st.stack_of_open_elements = top :: rest')
    (htag : tag = "p" ∨ tag = "h1" ∨ tag = "h2" ∨ tag = "a") :
    step st (.startTag tag sc attrs) rest = .cont (insert_element st tag attrs) rest ∧
    (insert_element st tag attrs).stack_of_open_elements =
      st.nodes.length :: top :: rest' ∧
    (insert_element st tag attrs).nodes.get? st.nodes.length =
      some { kind := .element ⟨tag, attrs⟩, parent := some top,
             first_child := none, last_child := none, next_sibling := none,
             previous_sibling := (st.nodes.getD top default).first_child } ∧
    (outcomeNodes (parseHtml "<html><head></head><body><p><p>")).get? 5 =
      some { kind := .element ⟨"p", []⟩, parent := some 4,
             first_child := none, last_child := none, next_sibling := none,
             previous_sibling := none } := by
  refine ⟨?_, ?_, ?_, by decide⟩
  · rcases htag with rfl | rfl | rfl | rfl <;> simp [step, hmode]
  · simp only [insert_element, hstack, List.headD_cons]
    cases hfc : (st.nodes.getD top default).first_child <;> rfl
  · simp only [insert_element, hstack, List.headD_cons]
    cases hfc : (st.nodes.getD top default).first_child <;>
      · rw [List.get?_append_right (by simp)]
        simp [create_element_node]

/-- A concrete `InBody` state: a document with an open body element (index
1) on the stack. -/
def openBodyState : ParserState :=
  { nodes := [{ kind := .document, first_child := some 1, last_child := some 1 },
              { kind := .element ⟨"body", []⟩, parent := some 0 }]
    mode := .inBody
    original_insertion_mode := .initial
    stack_of_open_elements := [1] }

/-- Witness for C6 at `openBodyState`. -/
theorem claim_C6_witness :
    step openBodyState (.startTag "p" false []) [] =
      .cont (insert_element openBodyState "p" []) [] ∧
    (insert_element openBodyState "p" []).stack_of_open_elements = [2, 1] :=
  ⟨(claim_C6 openBodyState 1 [] "p" false [] [] rfl rfl (Or.inl rfl)).1,
   (claim_C6 openBodyState 1 [] "p" false [] [] rfl rfl (Or.inl rfl)).2.1⟩

/-! ## C2: reachability of the fatal assertion in pop_until -/

/-- C2 counterexample: the input `<html><head></head><body></p>` carries a
stray `</p>` with no open p element; the InBody p/h1/h2/a end-tag handling
calls `pop_until` without a containment check, its assertion fails, and the
parse aborts instead of dropping the token. -/
theorem claim_C2_counterexample :
    parseHtml "<html><head></head><body></p>" = .fatal := by decide

/-- C2 amended: the guarded caller is safe — in `InBody` an end tag `body`
never reaches the fatal assertion, because `construct_tree` checks
`contain_in_stack` first (and the `html` end-tag path uses
`pop_current_node`, not `pop_until`) — but the unguarded p/h1/h2/a end-tag
path does abort on a stray end tag, e.g. `</h1>` with no open h1. -/
theorem claim_C2 (st : ParserState) (rest : List HtmlToken) (hmode : st.mode = .inBody) :
    step st (.endTag "body") rest ≠ .fatal ∧
    parseHtml "<html><head></head><body></h1>" = .fatal := by
  refine ⟨?_, by decide⟩
  by_cases h : contain_in_stack { st with mode := .afterBody } .body = true <;>
    simp [step, hmode, pop_until, h]

/-- Witness for C2 at a concrete `InBody` state. -/
theorem claim_C2_witness :
    step { initialState with mode := .inBody } (.endTag "body") [] ≠ .fatal ∧
    parseHtml "<html><head></head><body></h1>" = .fatal :=
  claim_C2 { initialState with mode := .inBody } [] rfl

/-! ## C1: insert_char's linking versus the sibling-append algorithm -/

/-- C1 counterexample: parsing `<html><head></head><body><p></p><p></p>`
leaves body (index 3) with children p (4) → p (5); appending the character
`X` then creates a text node (6) — but the source links it directly as node
4's `next_sibling`, overwriting the existing 4 → 5 link (node 5 drops out
of the chain, its own `next_sibling` still `none`), instead of appending it
after the last sibling 5 as the sibling-append algorithm of
`insert_element` would. -/
theorem claim_C1_counterexample :
    outcomeOk (parseHtml "<html><head></head><body><p></p><p></p>") = true ∧
    chainNext (outcomeNodes (parseHtml "<html><head></head><body><p></p><p></p>")) 4 = some 5 ∧
    outcomeOk (parseHtml "<html><head></head><body><p></p><p></p>X") = true ∧
    chainNext (outcomeNodes (parseHtml "<html><head></head><body><p></p><p></p>X")) 4 = some 6 ∧
    chainNext (outcomeNodes (parseHtml "<html><head></head><body><p></p><p></p>X")) 5 = none ∧
    (outcomeNodes (parseHtml "<html><head></head><body><p></p><p></p>X")).get? 6 =
      some { kind := .text "X", parent := some 3, first_child := none, last_child := none,
             next_sibling := none, previous_sibling := some 4 } := by decide

/-- A two-children state: the document (index 0, on the stack) has children
1 → 2.  `insert_char` and the spec's sibling-append disagree here. -/
def twoChildState : ParserState :=
  { nodes := [{ kind := .document, first_child := some 1, last_child := some 2 },
              { kind := .element ⟨"p", []⟩, parent := some 0, next_sibling := some 2 },
              { kind := .element ⟨"p", []⟩, parent := some 0, previous_sibling := some 1 }]
    mode := .inBody
    original_insertion_mode := .initial
    stack_of_open_elements := [0] }

/-- C1 amended: `insert_char`'s linking of a fresh text node coincides with
the sibling-append algorithm of `insert_element` exactly on states where
the current open element has at most one child; with two or more children
it instead overwrites the first child's `next_sibling` link (the two
functions differ on `twoChildState`). -/
theorem claim_C1 :
    (∀ st c, atMostOneChild st = true → insert_char st c = insert_char_spec st c) ∧
    insert_char twoChildState 'X' ≠ insert_char_spec twoChildState 'X' := by
  refine ⟨?_, by decide⟩
  intro st c h
  simp only [insert_char, insert_char_spec]
  split
  · rfl
  rename_i current hh
  split
  · rfl
  split
  · rfl
  split
  · rename_i fc hfc
    have hnone : chainNext st.nodes fc = none := by
      simp only [atMostOneChild, hh, hfc] at h
      simpa using h
    rw [last_sibling_none hnone]
  · rfl

/-- A one-child state, where `insert_char` agrees with the sibling-append
reference. -/
def oneChildState : ParserState :=
  { nodes := [{ kind := .document, first_child := some 1, last_child := some 1 },
              { kind := .element ⟨"p", []⟩, parent := some 0 }]
    mode := .inBody
    original_insertion_mode := .initial
    stack_of_open_elements := [0] }

/-- Witness for C1's general part at `oneChildState`. -/
theorem claim_C1_witness :
    atMostOneChild oneChildState = true ∧
    insert_char oneChildState 'X' = insert_char_spec oneChildState 'X' :=
  ⟨by decide, claim_C1.1 oneChildState 'X' (by decide)⟩

/-! ## String-splitting lemmas -/

/-- `split_once` finds nothing exactly when the character is absent. -/
theorem splitOnceChar_eq_none {c : Char} {l : List Char} :
    splitOnceChar c l = none ↔ c ∉ l := by
  induction l with
  | nil => simp [splitOnceChar]
  | cons x xs ih =>
    by_cases hx : x = c
    · subst hx
      simp [splitOnceChar]
    · simp [splitOnceChar, hx, ih, Ne.symm hx]

/-- `split_once` splits at the first occurrence: before it is the longest
prefix free of the character, after it the rest. -/
theorem splitOnceChar_eq_some {c : Char} : ∀ {l a b : List Char},
    splitOnceChar c l = some (a, b) →
    a = l.takeWhile (· ≠ c) ∧ b = (l.dropWhile (· ≠ c)).tail := by
  intro l
  induction l with
  | nil => intro a b h; simp [splitOnceChar] at h
  | cons x xs ih =>
    intro a b h
    by_cases hx : x = c
    · subst hx
      simp [splitOnceChar] at h
      obtain ⟨rfl, rfl⟩ := h
      simp [List.takeWhile_cons, List.dropWhile_cons]
    · simp only [splitOnceChar, if_neg hx, Option.map_eq_some'] at h
      obtain ⟨⟨a', b'⟩, hsp, hab⟩ := h
      cases hab
      obtain ⟨ha', hb'⟩ := ih hsp
      constructor
      · rw [List.takeWhile_cons, if_pos (by simpa using hx), ← ha']
      · rw [List.dropWhile_cons, if_pos (by simpa using hx), ← hb']

/-- Absence of the character leaves `takeWhile` with the whole list. -/
theorem takeWhile_ne_of_not_mem {c : Char} : ∀ {l : List Char}, c ∉ l →
    l.takeWhile (· ≠ c) = l := by
  intro l
  induction l with
  | nil => intro; rfl
  | cons x xs ih =>
    intro h
    simp only [List.mem_cons, not_or] at h
    rw [List.takeWhile_cons, if_pos (by simpa using Ne.symm h.1), ih h.2]

/-- `split(c)` never returns an empty piece list. -/
theorem splitAllChar_ne_nil (c : Char) (l : List Char) : splitAllChar c l ≠ [] := by
  cases l with
  | nil => simp [splitAllChar]
  | cons x xs =>
    simp only [splitAllChar]
    cases splitAllChar c xs with
    | nil => simp
    | cons h t => by_cases hx : x = c <;> simp [hx]

/-- The first piece of `split(c)` is the prefix before the first
occurrence. -/
theorem splitAllChar_headD (c : Char) : ∀ l : List Char,
    (splitAllChar c l).headD [] = l.takeWhile (· ≠ c) := by
  intro l
  induction l with
  | nil => rfl
  | cons x xs ih =>
    simp only [splitAllChar]
    cases hs : splitAllChar c xs with
    | nil => exact absurd hs (splitAllChar_ne_nil c xs)
    | cons hh tt =>
      rw [hs] at ih
      by_cases hx : x = c
      · subst hx
        simp only [splitAllChar, hs]
        simp [List.takeWhile_cons]
      · simp only [splitAllChar, hs, if_neg hx, List.headD_cons]
        rw [List.takeWhile_cons, if_pos (by simpa using hx)]
        rw [List.headD_cons] at ih
        rw [ih]

/-- The header loop succeeds exactly by mapping the claim's per-line
reading over the lines. -/
theorem parseHeaderLines_eq_map : ∀ {lines : List (List Char)} {hs : List Header},
    parseHeaderLines lines = some hs → hs = lines.map specHeader := by
  intro lines
  induction lines with
  | nil => intro hs h; simp [parseHeaderLines] at h; simp [← h]
  | cons line rest ih =>
    intro hs h
    simp only [parseHeaderLines, splitN2Char] at h
    cases hsp : splitOnceChar ':' line with
    | none => rw [hsp] at h; simp at h
    | some ab =>
      obtain ⟨a, b⟩ := ab
      rw [hsp] at h
      simp only [Option.map_eq_some'] at h
      obtain ⟨hs', hrec, rfl⟩ := h
      obtain ⟨ha, hb⟩ := splitOnceChar_eq_some hsp
      subst ha hb
      simp [List.map_cons, specHeader, Header.new, ih hrec]

/-- `mkResponse` never yields the network error. -/
theorem mkResponse_ne_err (sl : List Char) (hs : List Header) (b : List Char) (e : List Char) :
    mkResponse sl hs b ≠ .err e := by
  simp only [mkResponse]
  split <;> simp

/-- Components of a response `mkResponse` returns. -/
theorem mkResponse_ok (sl : List Char) (hs : List Header) (b : List Char)
    (r : HttpResponse) (h : mkResponse sl hs b = .ok r) :
    r.version = (splitAllChar ' ' sl).headD [] ∧
    (∃ f1, (splitAllChar ' ' sl).get? 1 = some f1 ∧
      r.status_code = (parseU32 f1).getD 404) ∧
    (splitAllChar ' ' sl).get? 2 = some r.reason ∧
    r.headers = hs ∧ r.body = b := by
  simp only [mkResponse] at h
  split at h
  · rename_i f1 f2 h1 h2
    cases h
    exact ⟨rfl, ⟨f1, h1, rfl⟩, h2, rfl, rfl⟩
  · simp at h

/-! ## C4: HttpResponse::new -/

/-- Whenever `HttpResponse.new` returns a response, the status code is the
second space-separated field of the first line parsed as a `u32`, with 404
as the fallback. -/
theorem http_new_ok_status (raw : List Char) (r : HttpResponse)
    (hok : HttpResponse.new raw = .ok r) :
    ∃ f1, (splitAllChar ' ' (specFirstLine (replaceNlCr (trimStart raw)))).get? 1 = some f1 ∧
      r.status_code = (parseU32 f1).getD 404 := by
  simp only [HttpResponse.new] at hok
  split at hok
  · simp at hok
  · rename_i sl rem hsp
    obtain ⟨hsl, _⟩ := splitOnceChar_eq_some hsp
    have hslF : sl = specFirstLine (replaceNlCr (trimStart raw)) := hsl
    split at hok
    · split at hok
      · simp at hok
      · obtain ⟨_, h2, _, _, _⟩ := mkResponse_ok _ _ _ _ hok
        rw [← hslF]
        exact h2
    · obtain ⟨_, h2, _, _, _⟩ := mkResponse_ok _ _ _ _ hok
      rw [← hslF]
      exact h2

theorem claim_C4_counterexample :
    HttpResponse.new "A\nB".toList = .panic := by decide

/-- C4 amended: `HttpResponse::new` fails (returns the network error)
exactly when the preprocessed response contains no newline; it can also
abort on responses that do contain one (see the counterexample) — but
whenever it returns a response, version/status/reason are the
space-separated fields 0/1/2 of the first line (the status falling back to
404 when unparsable), the headers are the trimmed `name: value` lines
before the first blank line, and the body is the text after the first
blank line, with an empty header list and the whole remainder as body when
no blank-line separator exists. -/
theorem claim_C4 (raw : List Char) :
    ((∃ e, HttpResponse.new raw = .err e) ↔
      '\n' ∉ replaceNlCr (trimStart raw)) ∧
    (∀ r, HttpResponse.new raw = .ok r →
      r.version = (splitAllChar ' ' (specFirstLine (replaceNlCr (trimStart raw)))).headD [] ∧
      (∃ f1, (splitAllChar ' ' (specFirstLine (replaceNlCr (trimStart raw)))).get? 1 = some f1 ∧
        r.status_code = (parseU32 f1).getD 404) ∧
      (splitAllChar ' ' (specFirstLine (replaceNlCr (trimStart raw)))).get? 2 = some r.reason ∧
      (splitOnceStr "\n\n".toList (specAfterFirstLine (replaceNlCr (trimStart raw))) = none →
        r.headers = [] ∧ r.body = specAfterFirstLine (replaceNlCr (trimStart raw))) ∧
      (∀ hsec bsec,
        splitOnceStr "\n\n".toList (specAfterFirstLine (replaceNlCr (trimStart raw))) =
          some (hsec, bsec) →
        r.headers = (splitAllChar '\n' hsec).map specHeader ∧ r.body = bsec)) := by
  constructor
  · constructor
    · rintro ⟨e, he⟩
      simp only [HttpResponse.new] at he
      split at he
      · rename_i heq
        exact splitOnceChar_eq_none.1 heq
      · exfalso
        split at he
        · split at he
          · simp at he
          · exact mkResponse_ne_err _ _ _ _ he
        · exact mkResponse_ne_err _ _ _ _ he
    · intro hmem
      refine ⟨"Invalid HTTP response: ".toList ++ replaceNlCr (trimStart raw), ?_⟩
      simp only [HttpResponse.new]
      rw [splitOnceChar_eq_none.2 hmem]
  · intro r hok
    simp only [HttpResponse.new] at hok
    split at hok
    · simp at hok
    · rename_i sl rem hsp
      obtain ⟨hsl, hrem⟩ := splitOnceChar_eq_some hsp
      have hslF : sl = specFirstLine (replaceNlCr (trimStart raw)) := hsl
      have hremF : rem = specAfterFirstLine (replaceNlCr (trimStart raw)) := hrem
      split at hok
      · rename_i hsec bsec hsep
        split at hok
        · simp at hok
        · rename_i hs hpl
          obtain ⟨h1, h2, h3, h4, h5⟩ := mkResponse_ok _ _ _ _ hok
          rw [← hslF, ← hremF]
          refine ⟨h1, h2, h3, ?_, ?_⟩
          · intro hcontra; rw [hsep] at hcontra; cases hcontra
          · intro hsec' bsec' heq
            rw [hsep] at heq
            cases heq
            exact ⟨h4.trans (parseHeaderLines_eq_map hpl), h5⟩
      · rename_i hsep
        obtain ⟨h1, h2, h3, h4, h5⟩ := mkResponse_ok _ _ _ _ hok
        rw [← hslF, ← hremF]
        refine ⟨h1, h2, h3, fun _ => ⟨h4, h5⟩, ?_⟩
        intro hsec bsec hcontra
        rw [hsep] at hcontra
        cases hcontra

/-- Witness for C4 on one of the repository's own test inputs. -/
theorem claim_C4_witness :
    ((∃ e, HttpResponse.new "HTTP/1.1 200 OK\nDate: xx xx xx\n\nbody message".toList = .err e) ↔
      '\n' ∉ replaceNlCr (trimStart "HTTP/1.1 200 OK\nDate: xx xx xx\n\nbody message".toList)) :=
  (claim_C4 "HTTP/1.1 200 OK\nDate: xx xx xx\n\nbody message".toList).1

/-! ## C10: unparsable status field falls back to 404 -/

/-- C10: whenever `HttpResponse::new` accepts a response whose status
line's second space-separated field does not parse as a `u32`, the returned
status code is 404. -/
theorem claim_C10 (raw : List Char) (r : HttpResponse) (f1 : List Char)
    (hok : HttpResponse.new raw = .ok r)
    (hf : (splitAllChar ' ' (specFirstLine (replaceNlCr (trimStart raw)))).get? 1 = some f1)
    (hbad : parseU32 f1 = none) :
    r.status_code = 404 := by
  obtain ⟨f1', hf1', hsc⟩ := http_new_ok_status raw r hok
  rw [hf] at hf1'
  cases hf1'
  rw [hsc, hbad]
  rfl

/-- Witness for C10: the status field `abc` does not parse, and the
accepted response carries status 404. -/
theorem claim_C10_witness :
    HttpResponse.new "HTTP/1.1 abc OK\nrest".toList =
      .ok { version := "HTTP/1.1".toList, status_code := 404, reason := "OK".toList,
            headers := [], body := "rest".toList } ∧
    (404 : Nat) = 404 :=
  ⟨by decide,
   claim_C10 "HTTP/1.1 abc OK\nrest".toList
     { version := "HTTP/1.1".toList, status_code := 404, reason := "OK".toList,
       headers := [], body := "rest".toList } "abc".toList
     (by decide) (by decide) (by decide)⟩

/-! ## Lemmas for the URL layer -/

/-- `find(c)` fails exactly when the character is absent. -/
theorem idxOfChar_eq_none {c : Char} : ∀ {l : List Char},
    idxOfChar c l = none ↔ c ∉ l := by
  intro l
  induction l with
  | nil => simp [idxOfChar]
  | cons x xs ih =>
    by_cases hx : x = c
    · subst hx; simp [idxOfChar]
    · simp [idxOfChar, hx, Option.map_eq_none', ih, Ne.symm hx]

/-- `find(c)` locates the first occurrence: the list splits as
`a ++ c :: b` with `a` free of `c` and of length the returned index. -/
theorem idxOfChar_eq_some {c : Char} : ∀ {l : List Char} {i : Nat},
    idxOfChar c l = some i → ∃ a b, l = a ++ c :: b ∧ a.length = i ∧ c ∉ a := by
  intro l
  induction l with
  | nil => intro i h; simp [idxOfChar] at h
  | cons x xs ih =>
    intro i h
    by_cases hx : x = c
    · subst hx
      simp [idxOfChar] at h
      subst h
      exact ⟨[], xs, rfl, rfl, by simp⟩
    · simp only [idxOfChar, if_neg hx, Option.map_eq_some'] at h
      obtain ⟨i', hrec, rfl⟩ := h
      obtain ⟨a, b, rfl, hlen, hmem⟩ := ih hrec
      exact ⟨x :: a, b, rfl, by simp [hlen], by simp [Ne.symm hx, hmem]⟩

/-- `takeWhile (· ≠ c)` over `a ++ c :: b` with `c ∉ a` gives `a`. -/
theorem takeWhile_middle {c : Char} : ∀ {a : List Char}, c ∉ a → ∀ b : List Char,
    (a ++ c :: b).takeWhile (· ≠ c) = a := by
  intro a
  induction a with
  | nil => intro _ b; simp [List.takeWhile_cons]
  | cons x xs ih =>
    intro h b
    simp only [List.mem_cons, not_or] at h
    simp only [List.cons_append, List.takeWhile_cons]
    rw [if_pos (by simpa using Ne.symm h.1), ih h.2]

/-- `dropWhile (· ≠ c)` over `a ++ c :: b` with `c ∉ a` gives `c :: b`. -/
theorem dropWhile_middle {c : Char} : ∀ {a : List Char}, c ∉ a → ∀ b : List Char,
    (a ++ c :: b).dropWhile (· ≠ c) = c :: b := by
  intro a
  induction a with
  | nil => intro _ b; simp [List.dropWhile_cons]
  | cons x xs ih =>
    intro h b
    simp only [List.mem_cons, not_or] at h
    simp only [List.cons_append, List.dropWhile_cons]
    rw [if_pos (by simpa using Ne.symm h.1), ih h.2]

/-- `takeWhile` passes over a prefix it wholly accepts. -/
theorem takeWhile_append_all {p : Char → Bool} : ∀ {a : List Char},
    (∀ x ∈ a, p x = true) → ∀ l : List Char,
    (a ++ l).takeWhile p = a ++ l.takeWhile p := by
  intro a
  induction a with
  | nil => intro _ l; rfl
  | cons x xs ih =>
    intro h l
    simp only [List.cons_append, List.takeWhile_cons]
    rw [if_pos (h x (by simp)), ih (fun y hy => h y (by simp [hy]))]

/-- `takeWhile` truncated by a rejected element inside the prefix ignores
the suffix. -/
theorem takeWhile_append_stop {p : Char → Bool} : ∀ {a : List Char},
    (∃ x ∈ a, p x = false) → ∀ l : List Char,
    (a ++ l).takeWhile p = a.takeWhile p := by
  intro a
  induction a with
  | nil => intro h; simp at h
  | cons x xs ih =>
    intro h l
    simp only [List.cons_append, List.takeWhile_cons]
    cases hp : p x with
    | false => rfl
    | true =>
      obtain ⟨y, hy, hpy⟩ := h
      rcases List.mem_cons.1 hy with rfl | hy'
      · rw [hp] at hpy; cases hpy
      · simp only [if_true]
        rw [ih ⟨y, hy', hpy⟩]

/-- A rejected element inside the list makes `takeWhile` a proper
prefix. -/
theorem length_takeWhile_lt {p : Char → Bool} : ∀ {a : List Char},
    (∃ x ∈ a, p x = false) → (a.takeWhile p).length < a.length := by
  intro a
  induction a with
  | nil => intro h; simp at h
  | cons x xs ih =>
    intro h
    simp only [List.takeWhile_cons]
    cases hp : p x with
    | false => simp
    | true =>
      obtain ⟨y, hy, hpy⟩ := h
      rcases List.mem_cons.1 hy with rfl | hy'
      · rw [hp] at hpy; cases hpy
      · simpa using ih ⟨y, hy', hpy⟩

/-- The first piece of `splitn(2, c)` is the prefix before the first
occurrence. -/
theorem splitN2Char_headD (c : Char) (l : List Char) :
    (splitN2Char c l).headD [] = l.takeWhile (· ≠ c) := by
  simp only [splitN2Char]
  cases hsp : splitOnceChar c l with
  | none =>
    rw [takeWhile_ne_of_not_mem (splitOnceChar_eq_none.1 hsp)]
    rfl
  | some p =>
    obtain ⟨a, b⟩ := p
    rw [List.headD_cons, (splitOnceChar_eq_some hsp).1]

/-- Stepping lemma for `find(sep)` when the prefix does not match. -/
theorem idxOfStr_cons_neg {sep : List Char} {x : Char} {xs : List Char}
    (h : sep.isPrefixOf (x :: xs) = false) :
    idxOfStr sep (x :: xs) = (idxOfStr sep xs).map (· + 1) := by
  simp [idxOfStr, h]

/-- Stepping lemma for `find(sep)` when the prefix matches. -/
theorem idxOfStr_cons_pos {sep : List Char} {x : Char} {xs : List Char}
    (h : sep.isPrefixOf (x :: xs) = true) :
    idxOfStr sep (x :: xs) = some 0 := by
  simp [idxOfStr, h]

/-- On a URL beginning with `http://`, the first `"://"` is the scheme's,
at index 4. -/
theorem idxOfStr_http (rest : List Char) :
    idxOfStr "://".toList ("http://".toList ++ rest) = some 4 := by
  have h1 : ([':', '/', '/'] : List Char).isPrefixOf
      ('h' :: 't' :: 't' :: 'p' :: ':' :: '/' :: '/' :: rest) = false := rfl
  have h2 : ([':', '/', '/'] : List Char).isPrefixOf
      ('t' :: 't' :: 'p' :: ':' :: '/' :: '/' :: rest) = false := rfl
  have h3 : ([':', '/', '/'] : List Char).isPrefixOf
      ('t' :: 'p' :: ':' :: '/' :: '/' :: rest) = false := rfl
  have h4 : ([':', '/', '/'] : List Char).isPrefixOf
      ('p' :: ':' :: '/' :: '/' :: rest) = false := rfl
  have h5 : ([':', '/', '/'] : List Char).isPrefixOf
      (':' :: '/' :: '/' :: rest) = true := by simp [List.isPrefixOf]
  show idxOfStr [':', '/', '/'] ('h' :: 't' :: 't' :: 'p' :: ':' :: '/' :: '/' :: rest) = some 4
  rw [idxOfStr_cons_neg h1, idxOfStr_cons_neg h2, idxOfStr_cons_neg h3,
      idxOfStr_cons_neg h4, idxOfStr_cons_pos h5]
  rfl

/-- `remove_scheme` strips exactly the `http://` prefix. -/
theorem remove_scheme_append (rest : List Char) :
    remove_scheme ("http://".toList ++ rest) = rest := by
  simp only [remove_scheme, idxOfStr_http]
  rfl

/-- Dropping a full prefix and one more element. -/
theorem drop_append_cons (a : List Char) (x : Char) (y : List Char) :
    (a ++ x :: y).drop (a.length + 1) = y := by
  induction a with
  | nil => simp
  | cons z zs ih => simpa using ih

/-- A character is in a list exactly when `any (· = c)` holds. -/
theorem any_eq_of_mem {c : Char} {l : List Char} (h : c ∈ l) :
    l.any (· = c) = true := by
  rw [List.any_eq_true]
  exact ⟨c, h, by simp⟩

/-- A character absent from a list falsifies `any (· = c)`. -/
theorem any_eq_of_not_mem {c : Char} {l : List Char} (h : c ∉ l) :
    l.any (· = c) = false := by
  rw [List.any_eq_false]
  intro x hx
  simp only [decide_eq_true_eq]
  intro hcon
  exact h (hcon ▸ hx)

/-- `extract_host` computes the remainder truncated at the first `/`, then
at the first `:`. -/
theorem extract_host_eq (url : List Char) :
    extract_host url =
      ((remove_scheme url).takeWhile (· ≠ '/')).takeWhile (· ≠ ':') := by
  simp only [extract_host]
  split
  · rename_i p hidx
    obtain ⟨a, b, heq, hlen, hmem⟩ := idxOfChar_eq_some hidx
    rw [heq, takeWhile_middle hmem, ← hlen, List.take_left]
    exact splitAllChar_headD ':' a
  · rename_i hidx
    rw [takeWhile_ne_of_not_mem (idxOfChar_eq_none.1 hidx)]
    exact splitAllChar_headD ':' _

/-- `extract_path` computes the remainder's tail after the first `/`,
truncated at the first `?` (empty without a `/`). -/
theorem extract_path_eq (url : List Char) :
    extract_path url =
      (if (remove_scheme url).any (· = '/') then
        (((remove_scheme url).dropWhile (· ≠ '/')).tail).takeWhile (· ≠ '?')
      else []) := by
  simp only [extract_path, splitN2Char]
  cases hsp : splitOnceChar '/' (remove_scheme url) with
  | none =>
    have hno : '/' ∉ remove_scheme url := splitOnceChar_eq_none.1 hsp
    rw [if_neg (by simp [any_eq_of_not_mem hno])]
  | some p =>
    obtain ⟨d, e⟩ := p
    obtain ⟨hd, he⟩ := splitOnceChar_eq_some hsp
    have hmem : '/' ∈ remove_scheme url := by
      by_contra hno
      rw [splitOnceChar_eq_none.2 hno] at hsp
      cases hsp
    rw [if_pos (by simp [any_eq_of_mem hmem])]
    rw [← he]
    exact splitN2Char_headD '?' e

/-- `extract_searchpart` computes the full URL's tail after the first
`?`. -/
theorem extract_searchpart_eq (url : List Char) :
    extract_searchpart url = urlSearchSpec url := by
  simp only [extract_searchpart, splitN2Char, urlSearchSpec]
  cases hsp : splitOnceChar '?' url with
  | none =>
    have hno : '?' ∉ url := splitOnceChar_eq_none.1 hsp
    rw [if_neg (by simp [any_eq_of_not_mem hno])]
  | some p =>
    obtain ⟨d, e⟩ := p
    obtain ⟨hd, he⟩ := splitOnceChar_eq_some hsp
    have hmem : '?' ∈ url := by
      by_contra hno
      rw [splitOnceChar_eq_none.2 hno] at hsp
      cases hsp
    rw [if_pos (by simp [any_eq_of_mem hmem]), he]

/-! ## C5: Url::new -/

/-- C5 counterexample: `http://a/b:c` starts with the supported scheme, so
by the claim `Url::new` should return with port `80` (the authority `a` has
no `:`); instead `extract_port` slices `a[0][index+1..]` with the index of
a `:` that lies beyond the first `/`, and the out-of-range slice aborts. -/
theorem claim_C5_counterexample :
    is_supported_protocol "http://a/b:c".toList = true ∧
    Url.new "http://a/b:c".toList = .panic := by decide

/-- C5 amended: `Url::new` returns the invalid-scheme error exactly when
the input does not start with `http://`; whenever it returns a `Url`, the
components are as the claim describes (host before the first `/` and `:`,
port after the `:` of the authority or `80` without any `:`, path between
the first `/` and the following `?`, searchpart after the first `?`) — but
when the remainder's first `:` occurs after the first `/`, port extraction
aborts on an out-of-range slice instead of returning (see the
counterexample). -/
theorem claim_C5 :
    (∀ url, (∃ e, Url.new url = .err e) ↔ is_supported_protocol url = false) ∧
    (∀ url u, Url.new url = .ok u →
      u.host = urlHostSpec url ∧ u.port = urlPortSpec url ∧
      u.path = urlPathSpec url ∧ u.searchpart = urlSearchSpec url) ∧
    Url.new "http://a/b:c".toList = .panic := by
  refine ⟨?_, ?_, by decide⟩
  · intro url
    constructor
    · rintro ⟨e, he⟩
      simp only [Url.new] at he
      by_cases hp : is_supported_protocol url = true
      · rw [if_neg (by simp [hp])] at he
        cases hport : extract_port url with
        | none => rw [hport] at he; cases he
        | some port => rw [hport] at he; cases he
      · simpa using hp
    · intro hp
      exact ⟨"Invalid scheme.".toList, by simp [Url.new, hp]⟩
  · intro url u hok
    simp only [Url.new] at hok
    by_cases hp : is_supported_protocol url = true
    · rw [if_neg (by simp [hp])] at hok
      obtain ⟨t, rfl⟩ : ∃ t, "http://".toList ++ t = url := by
        rw [is_supported_protocol, List.isPrefixOf_iff_prefix] at hp
        exact hp
      have hrs : remove_scheme ("http://".toList ++ t) = t := remove_scheme_append t
      have hrem : urlRemainder ("http://".toList ++ t) = t := by
        simp only [urlRemainder]
        rw [show (7 : Nat) = "http://".toList.length from rfl, List.drop_left]
      have hauth : urlAuthority ("http://".toList ++ t) = t.takeWhile (· ≠ '/') := by
        rw [urlAuthority, hrem]
      cases hport : extract_port ("http://".toList ++ t) with
      | none => rw [hport] at hok; cases hok
      | some port =>
        rw [hport] at hok
        cases hok
        refine ⟨?_, ?_, ?_, extract_searchpart_eq _⟩
        · rw [extract_host_eq, urlHostSpec, hauth, hrs]
        · simp only [extract_port, hrs] at hport
          split at hport
          · rename_i i hidx
            obtain ⟨a, b, rfl, hlen, hmem⟩ := idxOfChar_eq_some hidx
            rw [splitN2Char_headD] at hport
            have hslash : '/' ∉ a := by
              intro hsa
              have hstop : ∃ x ∈ a, (fun y : Char => decide (y ≠ '/')) x = false :=
                ⟨'/', hsa, by simp⟩
              rw [takeWhile_append_stop hstop (':' :: b)] at hport
              have h2 : (a.takeWhile (· ≠ '/')).length < a.length :=
                length_takeWhile_lt hstop
              by_cases hcond : i + 1 ≤ (a.takeWhile (· ≠ '/')).length
              · omega
              · rw [if_neg hcond] at hport
                cases hport
            have hall : ∀ x ∈ a, (fun y : Char => decide (y ≠ '/')) x = true := by
              intro x hx
              simp only [decide_eq_true_eq]
              intro hcon
              exact hslash (hcon ▸ hx)
            have hauth2 : (a ++ ':' :: b).takeWhile (· ≠ '/') =
                a ++ ':' :: b.takeWhile (· ≠ '/') := by
              rw [takeWhile_append_all hall (':' :: b), List.takeWhile_cons,
                  if_pos (by simp)]
            rw [hauth2] at hport
            have hcond : i + 1 ≤ (a ++ ':' :: b.takeWhile (· ≠ '/')).length := by
              simp only [List.length_append, List.length_cons]
              omega
            rw [if_pos hcond] at hport
            cases hport
            have hdrop : (a ++ ':' :: b.takeWhile (· ≠ '/')).drop (i + 1) =
                b.takeWhile (· ≠ '/') := by
              rw [← hlen, drop_append_cons]
            rw [hdrop, urlPortSpec, hauth, hauth2]
            have hmemAuth : ':' ∈ a ++ ':' :: b.takeWhile (· ≠ '/') := by simp
            rw [if_pos (by simp [any_eq_of_mem hmemAuth])]
            rw [dropWhile_middle hmem, List.tail_cons]
          · rename_i hidx
            cases hport
            have hno : ':' ∉ t := idxOfChar_eq_none.1 hidx
            have hnoAuth : ':' ∉ t.takeWhile (· ≠ '/') := fun hx =>
              hno ((List.takeWhile_sublist (fun y : Char => decide (y ≠ '/'))).subset hx)
            rw [urlPortSpec, hauth, any_eq_of_not_mem hnoAuth]
            simp
        · rw [extract_path_eq, urlPathSpec, hrem, hrs]
    · rw [if_pos (by simpa using hp)] at hok
      cases hok

/-- Witness for C5's component clause on the spec's own example URL. -/
theorem claim_C5_witness :
    Url.new "http://example.com:8888/index.html?a=123&b=456".toList =
      .ok { url := "http://example.com:8888/index.html?a=123&b=456".toList,
            host := "example.com".toList, port := "8888".toList,
            path := "index.html".toList, searchpart := "a=123&b=456".toList } ∧
    "example.com".toList =
      urlHostSpec "http://example.com:8888/index.html?a=123&b=456".toList := by
  have hok : Url.new "http://example.com:8888/index.html?a=123&b=456".toList =
      .ok { url := "http://example.com:8888/index.html?a=123&b=456".toList,
            host := "example.com".toList, port := "8888".toList,
            path := "index.html".toList, searchpart := "a=123&b=456".toList } := by decide
  exact ⟨hok, (claim_C5.2.1 _ _ hok).1⟩

/-! ## C3: structural invariants of the sibling chains -/

/-- C3 counterexample: parsing
`<html><head></head><body><p></p><p></p><p></p>` gives body (3) the
children 4 → 5 → 6, but the third p's `previous_sibling` is 4 — the
parent's first child — not its immediate predecessor 5 (`insert_element`
line 332 downgrades `first_child`, not the last sibling). -/
theorem claim_C3_counterexample :
    outcomeOk (parseHtml "<html><head></head><body><p></p><p></p><p></p>") = true ∧
    chainNext (outcomeNodes (parseHtml "<html><head></head><body><p></p><p></p><p></p>")) 4 =
      some 5 ∧
    chainNext (outcomeNodes (parseHtml "<html><head></head><body><p></p><p></p><p></p>")) 5 =
      some 6 ∧
    ((outcomeNodes (parseHtml "<html><head></head><body><p></p><p></p><p></p>")).get? 6).map
      Node.previous_sibling = some (some 4) ∧
    (4 : Nat) ≠ 5 := by decide

/-! ### Reachability lemmas for sibling chains -/

/-- A chain step from an in-range node. -/
theorem chainNext_lt {nodes : List Node} {i j : Nat} (h : chainNext nodes i = some j) :
    i < nodes.length := by
  cases hg : nodes.get? i with
  | none => rw [chainNext, hg] at h; cases h
  | some nd => exact (List.get?_eq_some.1 hg).1

/-- Extending a chain walk by one step at the end. -/
theorem reaches_snoc {nodes : List Node} {c l n : Nat}
    (h : Reaches nodes c l) (he : chainNext nodes l = some n) : Reaches nodes c n := by
  induction h with
  | refl i => exact Reaches.step he (Reaches.refl n)
  | step h1 _ ih => exact Reaches.step h1 (ih he)

/-- A node with no next sibling reaches only itself. -/
theorem reaches_none {nodes : List Node} {i x : Nat}
    (hn : chainNext nodes i = none) (h : Reaches nodes i x) : x = i := by
  cases h with
  | refl => rfl
  | step h1 h2 => rw [hn] at h1; cases h1

/-- Chains are monotone in the arena index. -/
theorem reaches_le {nodes : List Node} (hinc : NextIncr nodes) :
    ∀ {c x}, Reaches nodes c x → c ≤ x := by
  intro c x h
  induction h with
  | refl i => exact le_refl i
  | step h1 _ ih => exact le_of_lt (lt_of_lt_of_le (hinc _ _ h1).1 ih)

/-- Chains stay in range. -/
theorem reaches_lt {nodes : List Node} (hinc : NextIncr nodes) :
    ∀ {c x}, Reaches nodes c x → c < nodes.length → x < nodes.length := by
  intro c x h
  induction h with
  | refl i => exact fun h => h
  | step h1 _ ih => intro _; exact ih (hinc _ _ h1).2

/-- Reachability transfers to an arena with at least the same chain
links. -/
theorem reaches_mono {a b : List Node}
    (hsub : ∀ y z, chainNext a y = some z → chainNext b y = some z) :
    ∀ {c x}, Reaches a c x → Reaches b c x := by
  intro c x h
  induction h with
  | refl i => exact Reaches.refl i
  | step h1 _ ih => exact Reaches.step (hsub _ _ h1) ih

/-- Auxiliary form of `reaches_to_u` with the endpoint generalized. -/
theorem reaches_to_u_aux {a b : List Node} (hinc : NextIncr a) {u : Nat}
    (hag : ∀ y z, chainNext a y = some z → y ≠ u → chainNext b y = some z) :
    ∀ {c w}, Reaches a c w → w = u → Reaches b c u := by
  intro c w h
  induction h with
  | refl i => intro he; subst he; exact Reaches.refl _
  | step h1 h2 ih =>
    intro he
    subst he
    refine Reaches.step (hag _ _ h1 ?_) (ih rfl)
    have h2' := reaches_le hinc h2
    have h1' := (hinc _ _ h1).1
    omega

/-- A walk ending at `u` survives a change of `u`'s outgoing link, because
no link out of `u` is used on the way there. -/
theorem reaches_to_u {a b : List Node} (hinc : NextIncr a) {u : Nat}
    (hag : ∀ y z, chainNext a y = some z → y ≠ u → chainNext b y = some z)
    {c : Nat} (h : Reaches a c u) : Reaches b c u :=
  reaches_to_u_aux hinc hag h rfl

/-- Reachability along a chain all of whose members satisfy a predicate
avoiding the modified index transfers to the modified arena. -/
theorem reaches_mono_cond {a b : List Node} {u : Nat}
    (hag : ∀ y z, chainNext a y = some z → y ≠ u → chainNext b y = some z)
    (P : Nat → Prop) (hP : ∀ y z, chainNext a y = some z → P y → P z)
    (hPu : ∀ y, P y → y ≠ u) :
    ∀ {c x}, P c → Reaches a c x → Reaches b c x := by
  intro c x hc h
  induction h with
  | refl i => exact Reaches.refl i
  | step h1 h2 ih =>
    exact Reaches.step (hag _ _ h1 (hPu _ hc)) (ih (hP _ _ h1 hc))

/-- Walks in an arena extended by one link `u → n` (with `n` terminal)
decompose into an old walk, or an old walk to `u` followed by the new
link. -/
theorem reaches_back {a b : List Node} {u n : Nat}
    (hedge : ∀ y z, chainNext b y = some z → (y = u ∧ z = n) ∨ chainNext a y = some z)
    (hnone : chainNext b n = none) :
    ∀ {c x}, Reaches b c x → Reaches a c x ∨ (Reaches a c u ∧ x = n) := by
  intro c x h
  induction h with
  | refl i => exact Or.inl (Reaches.refl i)
  | step h1 h2 ih =>
    rcases hedge _ _ h1 with ⟨rfl, rfl⟩ | hold
    · have := reaches_none hnone h2
      subst this
      exact Or.inr ⟨Reaches.refl _, rfl⟩
    · rcases ih with h | ⟨h, rfl⟩
      · exact Or.inl (Reaches.step hold h)
      · exact Or.inr ⟨Reaches.step hold h, rfl⟩

/-- The fuel-bounded walk of `insert_element` lands on the chain's last
element whenever the fuel covers the arena size. -/
theorem last_sibling_spec {nodes : List Node} (hinc : NextIncr nodes) :
    ∀ {c l : Nat}, Reaches nodes c l → chainNext nodes l = none →
    ∀ fuel, nodes.length ≤ fuel + c → last_sibling nodes fuel c = l := by
  intro c l h
  induction h with
  | refl i =>
    intro hnone fuel _
    exact last_sibling_none hnone fuel
  | step h1 h2 ih =>
    rename_i i j k
    intro hnone fuel hfuel
    cases fuel with
    | zero =>
      have := chainNext_lt h1
      omega
    | succ f =>
      simp only [last_sibling, h1]
      apply ih hnone
      have := (hinc _ _ h1).1
      omega

/-! ### Arena-update description lemmas -/

/-- Lookup in a one-element extension. -/
theorem get?_append_one {l : List Node} {x : Node} (i : Nat) :
    (l ++ [x]).get? i = if i = l.length then some x else l.get? i := by
  rcases lt_trichotomy i l.length with h | h | h
  · rw [if_neg (by omega), List.get?_eq_getElem?, List.getElem?_append, if_pos h,
        ← List.get?_eq_getElem?]
  · subst h
    rw [if_pos rfl, List.get?_eq_getElem?]
    simp
  · rw [if_neg (by omega), List.get?_eq_none.2 (by simp; omega), List.get?_eq_none.2 (by omega)]

/-- Lookup after one set and a one-element extension. -/
theorem get?_one_set_append {nodes : List Node} {v : Nat} {nv newNode : Node}
    (hv : v < nodes.length) (i : Nat) :
    (nodes.set v nv ++ [newNode]).get? i =
      if i = v then some nv
      else if i = nodes.length then some newNode
      else nodes.get? i := by
  rw [get?_append_one, List.length_set]
  by_cases hin : i = nodes.length
  · subst hin
    rw [if_pos rfl, if_neg (by omega), if_pos rfl]
  · rw [if_neg hin]
    by_cases hlt : i < nodes.length
    · rw [List.get?_set_of_lt _ _ hlt]
      by_cases hiv : i = v
      · subst hiv
        rw [if_pos rfl, if_pos rfl]
      · rw [if_neg (fun h => hiv h.symm), if_neg hiv, if_neg hin]
    · rw [List.get?_eq_none.2 (by simp; omega), if_neg (by omega), if_neg hin,
          List.get?_eq_none.2 (by omega)]

/-- Lookup after two sets and a one-element extension. -/
theorem get?_two_set_append {nodes : List Node} {u v : Nat} {nu nv newNode : Node}
    (hu : u < nodes.length) (hv : v < nodes.length) (huv : u ≠ v) (i : Nat) :
    ((nodes.set u nu).set v nv ++ [newNode]).get? i =
      if i = v then some nv
      else if i = u then some nu
      else if i = nodes.length then some newNode
      else nodes.get? i := by
  rw [get?_append_one, List.length_set, List.length_set]
  by_cases hin : i = nodes.length
  · subst hin
    rw [if_pos rfl, if_neg (by omega), if_neg (by omega), if_pos rfl]
  · rw [if_neg hin]
    by_cases hlt : i < nodes.length
    · rw [List.get?_set_of_lt _ _ (by simp [hlt]), List.get?_set_of_lt _ _ hlt]
      by_cases hiv : i = v
      · subst hiv
        rw [if_pos rfl, if_pos rfl]
      · rw [if_neg (fun h => hiv h.symm), if_neg hiv]
        by_cases hiu : i = u
        · subst hiu
          rw [if_pos rfl, if_pos rfl]
        · rw [if_neg (fun h => hiu h.symm), if_neg hiu, if_neg hin]
    · rw [List.get?_eq_none.2 (by simp; omega), if_neg (by omega), if_neg (by omega), if_neg hin,
          List.get?_eq_none.2 (by omega)]

/-- Lookup and default of an in-range index. -/
theorem get?_getD {nodes : List Node} {i : Nat} (h : i < nodes.length) :
    nodes.get? i = some (nodes.getD i default) := by
  cases hg : nodes.get? i with
  | none =>
    rw [List.get?_eq_none] at hg
    omega
  | some nd =>
    rw [List.getD_eq_get?, hg]
    rfl

/-- Out-of-range indices have no chain link. -/
theorem chainNext_out {nodes : List Node} {i : Nat} (h : nodes.length ≤ i) :
    chainNext nodes i = none := by
  rw [chainNext, List.get?_eq_none.2 h]
  rfl

/-- All structural invariants survive appending a fresh node as the first
(and last) child of a previously childless in-range node `v`. -/
theorem inv_append_first {nodes : List Node} {v : Nat} {newNode : Node}
    (hv : v < nodes.length)
    (hfc : (nodes.getD v default).first_child = none)
    (hnp : newNode.parent = some v) (hnf : newNode.first_child = none)
    (hnl : newNode.last_child = none) (hnn : newNode.next_sibling = none)
    (hnpr : newNode.previous_sibling = none)
    (hinc : NextIncr nodes) (hflt : FirstLt nodes) (hchain : ChainOk nodes)
    (hpar : ParentChain nodes) (hprev : PrevOk nodes) (hfpn : FirstPrevNone nodes)
    (hplt : ParentLt nodes) :
    ∀ nodes2, nodes2 = nodes.set v { nodes.getD v default with
        first_child := some nodes.length, last_child := some nodes.length } ++ [newNode] →
    NextIncr nodes2 ∧ FirstLt nodes2 ∧ ChainOk nodes2 ∧ ParentChain nodes2 ∧
    PrevOk nodes2 ∧ FirstPrevNone nodes2 ∧ ParentLt nodes2 ∧
    nodes2.length = nodes.length + 1 := by
  intro nodes2 hn2
  have hlen2 : nodes2.length = nodes.length + 1 := by
    subst hn2
    simp
  have hget : ∀ i, nodes2.get? i =
      if i = v then some { nodes.getD v default with
        first_child := some nodes.length, last_child := some nodes.length }
      else if i = nodes.length then some newNode
      else nodes.get? i := by
    subst hn2
    exact fun i => get?_one_set_append hv i
  have hchn : ∀ i, chainNext nodes2 i = chainNext nodes i := by
    intro i
    rw [chainNext, hget i, chainNext]
    by_cases hiv : i = v
    · subst hiv
      rw [if_pos rfl, get?_getD hv]
      rfl
    · rw [if_neg hiv]
      by_cases hin : i = nodes.length
      · subst hin
        rw [if_pos rfl, List.get?_eq_none.2 (le_refl _)]
        simp [hnn]
      · rw [if_neg hin]
  refine ⟨?_, ?_, ?_, ?_, ?_, ?_, ?_, hlen2⟩
  · -- NextIncr
    intro i j h
    rw [hchn] at h
    have := hinc _ _ h
    omega
  · -- FirstLt
    intro i nd c hg hf
    rw [hget] at hg
    by_cases hiv : i = v
    · rw [if_pos hiv] at hg
      cases hg
      simp only [] at hf
      cases hf
      omega
    · rw [if_neg hiv] at hg
      by_cases hin : i = nodes.length
      · rw [if_pos hin] at hg
        cases hg
        rw [hnf] at hf
        cases hf
      · rw [if_neg hin] at hg
        have := hflt _ _ _ hg hf
        omega
  · -- ChainOk
    intro i nd hg
    rw [hget] at hg
    by_cases hiv : i = v
    · rw [if_pos hiv] at hg
      cases hg
      constructor
      · intro c hc
        simp only [] at hc
        cases hc
        refine ⟨nodes.length, rfl, Reaches.refl _, ?_⟩
        rw [hchn]
        exact chainNext_out (le_refl _)
      · intro h0
        simp only [] at h0
        cases h0
    · rw [if_neg hiv] at hg
      by_cases hin : i = nodes.length
      · rw [if_pos hin] at hg
        cases hg
        exact ⟨fun c hc => absurd (hnf ▸ hc) (by simp), fun _ => hnl⟩
      · rw [if_neg hin] at hg
        obtain ⟨h1, h2⟩ := hchain _ _ hg
        constructor
        · intro c hc
          obtain ⟨l, hl, hr, hn⟩ := h1 c hc
          exact ⟨l, hl, reaches_mono (fun y z hz => by rwa [hchn]) hr, by rwa [hchn]⟩
        · exact h2
  · -- ParentChain
    intro q nq c hq hf
    rw [hget] at hq
    by_cases hqv : q = v
    · subst hqv
      rw [if_pos rfl] at hq
      cases hq
      simp only [] at hf
      cases hf
      intro x hx
      have hxn : x = nodes.length := by
        refine reaches_none ?_ hx
        rw [hchn]
        exact chainNext_out (le_refl _)
      subst hxn
      refine ⟨newNode, ?_, hnp⟩
      rw [hget, if_neg (by omega), if_pos rfl]
    · rw [if_neg hqv] at hq
      by_cases hqn : q = nodes.length
      · rw [if_pos hqn] at hq
        cases hq
        rw [hnf] at hf
        cases hf
      · rw [if_neg hqn] at hq
        intro x hx
        have hx' : Reaches nodes c x :=
          reaches_mono (fun y z hz => by rwa [← hchn]) hx
        obtain ⟨nx, hgx, hpx⟩ := hpar _ _ _ hq hf _ hx'
        have hxlt : x < nodes.length :=
          reaches_lt hinc hx' (hflt _ _ _ hq hf)
        by_cases hxv : x = v
        · refine ⟨_, by rw [hget, if_pos hxv], ?_⟩
          have hxeq : nodes.getD v default = nx := by
            have h1 := get?_getD hv
            rw [hxv] at hgx
            rw [hgx] at h1
            cases h1
            rfl
          simp only [hxeq]
          exact hpx
        · exact ⟨nx, by rw [hget, if_neg hxv, if_neg (by omega)]; exact hgx, hpx⟩
  · -- PrevOk
    intro j nj p hj hp
    rw [hget] at hj
    by_cases hjv : j = v
    · rw [if_pos hjv] at hj
      cases hj
      simp only [] at hp
      obtain ⟨q, nq, hq1, hq2, hq3⟩ := hprev _ _ _ (get?_getD hv) hp
      have hqv : q ≠ v := by
        intro hqv
        rw [hqv, get?_getD hv] at hq2
        cases hq2
        rw [hfc] at hq3
        cases hq3
      have hqlt : q < nodes.length := (List.get?_eq_some.1 hq2).1
      exact ⟨q, nq, hq1, by rw [hget, if_neg hqv, if_neg (by omega)]; exact hq2, hq3⟩
    · rw [if_neg hjv] at hj
      by_cases hjn : j = nodes.length
      · rw [if_pos hjn] at hj
        cases hj
        rw [hnpr] at hp
        cases hp
      · rw [if_neg hjn] at hj
        obtain ⟨q, nq, hq1, hq2, hq3⟩ := hprev _ _ _ hj hp
        have hqv : q ≠ v := by
          intro hqv
          rw [hqv, get?_getD hv] at hq2
          cases hq2
          rw [hfc] at hq3
          cases hq3
        have hqlt : q < nodes.length := (List.get?_eq_some.1 hq2).1
        exact ⟨q, nq, hq1, by rw [hget, if_neg hqv, if_neg (by omega)]; exact hq2, hq3⟩
  · -- FirstPrevNone
    intro q nq c nc hq hf hc
    rw [hget] at hq
    by_cases hqv : q = v
    · subst hqv
      rw [if_pos rfl] at hq
      cases hq
      simp only [] at hf
      cases hf
      rw [hget, if_neg (by omega), if_pos rfl] at hc
      cases hc
      exact hnpr
    · rw [if_neg hqv] at hq
      by_cases hqn : q = nodes.length
      · rw [if_pos hqn] at hq
        cases hq
        rw [hnf] at hf
        cases hf
      · rw [if_neg hqn] at hq
        have hclt : c < nodes.length := hflt _ _ _ hq hf
        rw [hget] at hc
        by_cases hcv : c = v
        · subst hcv
          rw [if_pos rfl] at hc
          cases hc
          simp only []
          exact hfpn _ _ _ _ hq hf (get?_getD hv)
        · rw [if_neg hcv, if_neg (by omega)] at hc
          exact hfpn _ _ _ _ hq hf hc
  · -- ParentLt
    intro i nd q hg hp
    rw [hget] at hg
    by_cases hiv : i = v
    · subst hiv
      rw [if_pos rfl] at hg
      cases hg
      simp only [] at hp
      exact hplt _ _ _ (get?_getD hv) hp
    · rw [if_neg hiv] at hg
      by_cases hin : i = nodes.length
      · subst hin
        rw [if_pos rfl] at hg
        cases hg
        rw [hnp] at hp
        cases hp
        omega
      · rw [if_neg hin] at hg
        exact hplt _ _ _ hg hp

/-- The value stored at an in-range index. -/
theorem getD_of_get? {nodes : List Node} {i : Nat} {nd : Node}
    (h : nodes.get? i = some nd) : nodes.getD i default = nd := by
  rw [List.getD_eq_get?, h]
  rfl

/-- All structural invariants survive replacing the kind of an in-range
node, the links untouched — the text-append branch of `insert_char`. -/
theorem inv_set_kind {nodes : List Node} {v : Nat} {k : NodeKind}
    (hv : v < nodes.length)
    (hinc : NextIncr nodes) (hflt : FirstLt nodes) (hchain : ChainOk nodes)
    (hpar : ParentChain nodes) (hprev : PrevOk nodes) (hfpn : FirstPrevNone nodes)
    (hplt : ParentLt nodes) :
    ∀ nodes2, nodes2 = nodes.set v { nodes.getD v default with kind := k } →
    NextIncr nodes2 ∧ FirstLt nodes2 ∧ ChainOk nodes2 ∧ ParentChain nodes2 ∧
    PrevOk nodes2 ∧ FirstPrevNone nodes2 ∧ ParentLt nodes2 ∧
    nodes2.length = nodes.length := by
  intro nodes2 hn2
  have hlen2 : nodes2.length = nodes.length := by
    subst hn2
    simp
  have hget : ∀ i, nodes2.get? i =
      if i = v then some { nodes.getD v default with kind := k } else nodes.get? i := by
    intro i
    subst hn2
    by_cases hiv : i = v
    · rw [if_pos hiv, hiv, List.get?_set_of_lt _ _ hv, if_pos rfl]
    · rw [if_neg hiv]
      by_cases hlt : i < nodes.length
      · rw [List.get?_set_of_lt _ _ hlt, if_neg (fun h => hiv h.symm)]
      · rw [List.get?_eq_none.2 (by simp; omega), List.get?_eq_none.2 (by omega)]
  have hfwd : ∀ i nd2, nodes2.get? i = some nd2 →
      ∃ nd, nodes.get? i = some nd ∧ nd2.parent = nd.parent ∧
        nd2.first_child = nd.first_child ∧ nd2.last_child = nd.last_child ∧
        nd2.previous_sibling = nd.previous_sibling := by
    intro i nd2 hg
    rw [hget] at hg
    by_cases hiv : i = v
    · rw [if_pos hiv] at hg
      cases hg
      refine ⟨nodes.getD v default, by rw [hiv]; exact get?_getD hv, ?_, ?_, ?_, ?_⟩ <;> rfl
    · rw [if_neg hiv] at hg
      exact ⟨nd2, hg, rfl, rfl, rfl, rfl⟩
  have hbwd : ∀ i nd, nodes.get? i = some nd →
      ∃ nd2, nodes2.get? i = some nd2 ∧ nd2.parent = nd.parent ∧
        nd2.first_child = nd.first_child ∧ nd2.last_child = nd.last_child ∧
        nd2.previous_sibling = nd.previous_sibling := by
    intro i nd hg
    rw [hget]
    by_cases hiv : i = v
    · rw [if_pos hiv]
      have heq : nodes.getD v default = nd := getD_of_get? (hiv ▸ hg)
      rw [heq]
      exact ⟨_, rfl, rfl, rfl, rfl, rfl⟩
    · rw [if_neg hiv]
      exact ⟨nd, hg, rfl, rfl, rfl, rfl⟩
  have hchn : ∀ i, chainNext nodes2 i = chainNext nodes i := by
    intro i
    rw [chainNext, hget i, chainNext]
    by_cases hiv : i = v
    · rw [if_pos hiv, hiv, get?_getD hv]
      rfl
    · rw [if_neg hiv]
  refine ⟨?_, ?_, ?_, ?_, ?_, ?_, ?_, hlen2⟩
  · intro i j h
    rw [hchn] at h
    have := hinc _ _ h
    omega
  · intro i nd c hg hf
    obtain ⟨nd0, hg0, _, hfi, _, _⟩ := hfwd _ _ hg
    rw [hfi] at hf
    have := hflt _ _ _ hg0 hf
    omega
  · intro i nd hg
    obtain ⟨nd0, hg0, _, hfi, hla, _⟩ := hfwd _ _ hg
    constructor
    · intro c hc
      rw [hfi] at hc
      obtain ⟨l, hl, hr, hn⟩ := (hchain _ _ hg0).1 c hc
      exact ⟨l, by rw [hla]; exact hl,
        reaches_mono (fun y z hz => by rwa [hchn]) hr, by rw [hchn]; exact hn⟩
    · intro h0
      rw [hfi] at h0
      rw [hla]
      exact (hchain _ _ hg0).2 h0
  · intro q nq c hq hf
    obtain ⟨nq0, hq0, _, hfi, _, _⟩ := hfwd _ _ hq
    rw [hfi] at hf
    intro x hx
    have hx' : Reaches nodes c x := reaches_mono (fun y z hz => by rwa [← hchn]) hx
    obtain ⟨nx, hgx, hpx⟩ := hpar _ _ _ hq0 hf _ hx'
    obtain ⟨nx2, hgx2, hpa2, _, _, _⟩ := hbwd _ _ hgx
    exact ⟨nx2, hgx2, by rw [hpa2]; exact hpx⟩
  · intro j nj p hj hp
    obtain ⟨nj0, hj0, hpa, _, _, hpr⟩ := hfwd _ _ hj
    rw [hpr] at hp
    obtain ⟨q, nq, h1, h2, h3⟩ := hprev _ _ _ hj0 hp
    obtain ⟨nq2, hg2, _, hf2, _, _⟩ := hbwd _ _ h2
    exact ⟨q, nq2, by rw [hpa]; exact h1, hg2, by rw [hf2]; exact h3⟩
  · intro q nq c nc hq hf hc
    obtain ⟨nq0, hq0, _, hfi, _, _⟩ := hfwd _ _ hq
    obtain ⟨nc0, hc0, _, _, _, hpr⟩ := hfwd _ _ hc
    rw [hfi] at hf
    rw [hpr]
    exact hfpn _ _ _ _ hq0 hf hc0
  · intro i nd q hg hp
    obtain ⟨nd0, hg0, hpa, _, _, _⟩ := hfwd _ _ hg
    rw [hpa] at hp
    exact hplt _ _ _ hg0 hp

/-- All structural invariants survive linking a fresh appended node after a
member `u` of node `v`'s sibling chain (overwriting `u`'s outgoing link as
`insert_char` does, or extending the chain end as `insert_element` does)
and updating `v`'s `last_child` to the fresh node. -/
theorem inv_append_sibling {nodes : List Node} {v u fc : Nat} {newNode : Node}
    (hv : v < nodes.length)
    (hfc : (nodes.getD v default).first_child = some fc)
    (hru : Reaches nodes fc u)
    (hnp : newNode.parent = some v) (hnf : newNode.first_child = none)
    (hnl : newNode.last_child = none) (hnn : newNode.next_sibling = none)
    (hnpr : newNode.previous_sibling = some fc)
    (hinc : NextIncr nodes) (hflt : FirstLt nodes) (hchain : ChainOk nodes)
    (hpar : ParentChain nodes) (hprev : PrevOk nodes) (hfpn : FirstPrevNone nodes)
    (hplt : ParentLt nodes) :
    ∀ nodes1 nodes2,
    nodes1 = nodes.set u { nodes.getD u default with next_sibling := some nodes.length } →
    nodes2 = nodes1.set v { nodes1.getD v default with last_child := some nodes.length }
      ++ [newNode] →
    NextIncr nodes2 ∧ FirstLt nodes2 ∧ ChainOk nodes2 ∧ ParentChain nodes2 ∧
    PrevOk nodes2 ∧ FirstPrevNone nodes2 ∧ ParentLt nodes2 ∧
    nodes2.length = nodes.length + 1 := by
  intro nodes1 nodes2 hn1 hn2
  have hfclt : fc < nodes.length := hflt _ _ _ (get?_getD hv) hfc
  have hult : u < nodes.length := reaches_lt hinc hru hfclt
  obtain ⟨nu, hgu, hpu⟩ := hpar _ _ _ (get?_getD hv) hfc _ hru
  have hnueq : nodes.getD u default = nu := getD_of_get? hgu
  have hvu : v < u := hplt _ _ _ hgu hpu
  have huv : u ≠ v := by omega
  have hgd1 : nodes1.getD v default = nodes.getD v default := by
    subst hn1
    rw [List.getD_eq_get?, List.get?_set_of_lt _ _ hv, if_neg huv, ← List.getD_eq_get?]
  have hn2' : nodes2 =
      (nodes.set u { nodes.getD u default with next_sibling := some nodes.length }).set v
        { nodes.getD v default with last_child := some nodes.length } ++ [newNode] := by
    rw [hn2, hgd1, hn1]
  have hlen2 : nodes2.length = nodes.length + 1 := by
    rw [hn2']
    simp
  have hget : ∀ i, nodes2.get? i =
      if i = v then some { nodes.getD v default with last_child := some nodes.length }
      else if i = u then some { nodes.getD u default with next_sibling := some nodes.length }
      else if i = nodes.length then some newNode
      else nodes.get? i := by
    rw [hn2']
    exact fun i => get?_two_set_append hult hv huv i
  have hchn : ∀ i, chainNext nodes2 i =
      if i = u then some nodes.length else chainNext nodes i := by
    intro i
    rw [chainNext, hget i]
    by_cases hiv : i = v
    · rw [if_pos hiv, if_neg (by omega : ¬ i = u), hiv, chainNext, get?_getD hv]
      rfl
    · rw [if_neg hiv]
      by_cases hiu : i = u
      · rw [if_pos hiu, if_pos hiu]
        rfl
      · rw [if_neg hiu, if_neg hiu]
        by_cases hin : i = nodes.length
        · rw [if_pos hin, hin, chainNext_out (le_refl _)]
          simp [hnn]
        · rw [if_neg hin, chainNext]
  have hag : ∀ y z, chainNext nodes y = some z → y ≠ u → chainNext nodes2 y = some z := by
    intro y z hz hy
    rw [hchn, if_neg hy]
    exact hz
  have hedge : ∀ y z, chainNext nodes2 y = some z →
      (y = u ∧ z = nodes.length) ∨ chainNext nodes y = some z := by
    intro y z hz
    rw [hchn] at hz
    by_cases hy : y = u
    · rw [if_pos hy] at hz
      cases hz
      exact Or.inl ⟨hy, rfl⟩
    · rw [if_neg hy] at hz
      exact Or.inr hz
  have hnone2 : chainNext nodes2 nodes.length = none := by
    rw [hchn, if_neg (by omega), chainNext_out (le_refl _)]
  have hu_self : ∀ cu, nu.first_child = some cu → ∀ y, Reaches nodes cu y → y ≠ u := by
    intro cu hcu y hy hyu
    obtain ⟨ny, hgy, hpy⟩ := hpar _ _ _ hgu hcu _ hy
    rw [hyu, hgu] at hgy
    cases hgy
    rw [hpu] at hpy
    cases hpy
    omega
  have hother : ∀ i ni, i ≠ v → nodes.get? i = some ni →
      ∀ ci, ni.first_child = some ci → ∀ y, Reaches nodes ci y → y ≠ u := by
    intro i ni hiv hgi ci hci y hy hyu
    obtain ⟨ny, hgy, hpy⟩ := hpar _ _ _ hgi hci _ hy
    rw [hyu, hgu] at hgy
    cases hgy
    rw [hpu] at hpy
    cases hpy
    exact hiv rfl
  have hpack : ∀ x nx, nodes.get? x = some nx → ∃ nx2, nodes2.get? x = some nx2 ∧
      nx2.parent = nx.parent ∧ nx2.first_child = nx.first_child ∧
      nx2.previous_sibling = nx.previous_sibling := by
    intro x nx hgx
    have hxlt : x < nodes.length := (List.get?_eq_some.1 hgx).1
    rw [hget]
    by_cases hxv : x = v
    · rw [if_pos hxv]
      have heq : nodes.getD v default = nx := getD_of_get? (hxv ▸ hgx)
      rw [heq]
      exact ⟨_, rfl, rfl, rfl, rfl⟩
    · rw [if_neg hxv]
      by_cases hxu : x = u
      · rw [if_pos hxu]
        have heq : nodes.getD u default = nx := getD_of_get? (hxu ▸ hgx)
        rw [heq]
        exact ⟨_, rfl, rfl, rfl, rfl⟩
      · rw [if_neg hxu, if_neg (by omega)]
        exact ⟨nx, hgx, rfl, rfl, rfl⟩
  refine ⟨?_, ?_, ?_, ?_, ?_, ?_, ?_, hlen2⟩
  · -- NextIncr
    intro i j h
    rw [hchn] at h
    by_cases hiu : i = u
    · rw [if_pos hiu] at h
      cases h
      omega
    · rw [if_neg hiu] at h
      have := hinc _ _ h
      omega
  · -- FirstLt
    intro i nd c hg hf
    rw [hget] at hg
    by_cases hiv : i = v
    · rw [if_pos hiv] at hg
      cases hg
      simp only [] at hf
      have := hflt _ _ _ (get?_getD hv) hf
      omega
    · rw [if_neg hiv] at hg
      by_cases hiu : i = u
      · rw [if_pos hiu] at hg
        cases hg
        simp only [] at hf
        rw [hnueq] at hf
        have := hflt _ _ _ hgu hf
        omega
      · rw [if_neg hiu] at hg
        by_cases hin : i = nodes.length
        · rw [if_pos hin] at hg
          cases hg
          rw [hnf] at hf
          cases hf
        · rw [if_neg hin] at hg
          have := hflt _ _ _ hg hf
          omega
  · -- ChainOk
    intro i nd hg
    rw [hget] at hg
    by_cases hiv : i = v
    · rw [if_pos hiv] at hg
      cases hg
      constructor
      · intro c hc
        simp only [] at hc
        rw [hfc] at hc
        cases hc
        refine ⟨nodes.length, rfl, ?_, hnone2⟩
        exact reaches_snoc (reaches_to_u hinc hag hru) (by rw [hchn, if_pos rfl])
      · intro h0
        simp only [] at h0
        rw [hfc] at h0
        cases h0
    · rw [if_neg hiv] at hg
      by_cases hiu : i = u
      · rw [if_pos hiu] at hg
        cases hg
        constructor
        · intro c hc
          simp only [] at hc
          rw [hnueq] at hc
          obtain ⟨l, hl, hr, hn⟩ := (hchain _ _ hgu).1 c hc
          have hlne : l ≠ u := hu_self c hc l hr
          refine ⟨l, by rw [hnueq]; exact hl, ?_, by rw [hchn, if_neg hlne]; exact hn⟩
          exact reaches_mono_cond hag (fun y => Reaches nodes c y)
            (fun y z hz hy => reaches_snoc hy hz) (hu_self c hc) (Reaches.refl c) hr
        · intro h0
          simp only [] at h0
          rw [hnueq] at h0
          rw [hnueq]
          exact (hchain _ _ hgu).2 h0
      · rw [if_neg hiu] at hg
        by_cases hin : i = nodes.length
        · rw [if_pos hin] at hg
          cases hg
          exact ⟨fun c hc => absurd (hnf ▸ hc) (by simp), fun _ => hnl⟩
        · rw [if_neg hin] at hg
          constructor
          · intro c hc
            obtain ⟨l, hl, hr, hn⟩ := (hchain _ _ hg).1 c hc
            have hlne : l ≠ u := hother _ _ hiv hg _ hc l hr
            refine ⟨l, hl, ?_, by rw [hchn, if_neg hlne]; exact hn⟩
            exact reaches_mono_cond hag (fun y => Reaches nodes c y)
              (fun y z hz hy => reaches_snoc hy hz) (hother _ _ hiv hg _ hc)
              (Reaches.refl c) hr
          · exact (hchain _ _ hg).2
  · -- ParentChain
    intro q nq c hq hf
    rw [hget] at hq
    by_cases hqv : q = v
    · rw [if_pos hqv] at hq
      cases hq
      simp only [] at hf
      rw [hfc] at hf
      cases hf
      intro x hx
      rcases reaches_back hedge hnone2 hx with hold | ⟨_, rfl⟩
      · obtain ⟨nx, hgx, hpx⟩ := hpar _ _ _ (get?_getD hv) hfc _ hold
        obtain ⟨nx2, hgx2, hpa2, _, _⟩ := hpack _ _ hgx
        refine ⟨nx2, hgx2, by rw [hpa2, hpx, hqv]⟩
      · refine ⟨newNode, ?_, by rw [hnp, hqv]⟩
        rw [hget, if_neg (by omega), if_neg (by omega), if_pos rfl]
    · rw [if_neg hqv] at hq
      by_cases hqu : q = u
      · rw [if_pos hqu] at hq
        cases hq
        simp only [] at hf
        rw [hnueq] at hf
        intro x hx
        rcases reaches_back hedge hnone2 hx with hold | ⟨hcu, rfl⟩
        · obtain ⟨nx, hgx, hpx⟩ := hpar _ _ _ hgu hf _ hold
          obtain ⟨nx2, hgx2, hpa2, _, _⟩ := hpack _ _ hgx
          refine ⟨nx2, hgx2, by rw [hpa2, hpx, hqu]⟩
        · exact absurd rfl (hu_self _ hf _ hcu)
      · rw [if_neg hqu] at hq
        by_cases hqn : q = nodes.length
        · rw [if_pos hqn] at hq
          cases hq
          rw [hnf] at hf
          cases hf
        · rw [if_neg hqn] at hq
          intro x hx
          rcases reaches_back hedge hnone2 hx with hold | ⟨hcu, rfl⟩
          · obtain ⟨nx, hgx, hpx⟩ := hpar _ _ _ hq hf _ hold
            obtain ⟨nx2, hgx2, hpa2, _, _⟩ := hpack _ _ hgx
            exact ⟨nx2, hgx2, by rw [hpa2]; exact hpx⟩
          · exact absurd rfl (hother _ _ hqv hq _ hf _ hcu)
  · -- PrevOk
    intro j nj p hj hp
    rw [hget] at hj
    by_cases hjv : j = v
    · rw [if_pos hjv] at hj
      cases hj
      simp only [] at hp
      obtain ⟨q, nq, h1, h2, h3⟩ := hprev _ _ _ (get?_getD hv) hp
      obtain ⟨nq2, hg2, _, hf2, _⟩ := hpack _ _ h2
      exact ⟨q, nq2, h1, hg2, by rw [hf2]; exact h3⟩
    · rw [if_neg hjv] at hj
      by_cases hju : j = u
      · rw [if_pos hju] at hj
        cases hj
        simp only [] at hp
        rw [hnueq] at hp
        obtain ⟨q, nq, h1, h2, h3⟩ := hprev _ _ _ hgu hp
        obtain ⟨nq2, hg2, _, hf2, _⟩ := hpack _ _ h2
        refine ⟨q, nq2, by rw [hnueq]; exact h1, hg2, by rw [hf2]; exact h3⟩
      · rw [if_neg hju] at hj
        by_cases hjn : j = nodes.length
        · rw [if_pos hjn] at hj
          cases hj
          rw [hnpr] at hp
          cases hp
          refine ⟨v, { nodes.getD v default with last_child := some nodes.length },
            hnp, by rw [hget, if_pos rfl], ?_⟩
          simp only []
          exact hfc
        · rw [if_neg hjn] at hj
          obtain ⟨q, nq, h1, h2, h3⟩ := hprev _ _ _ hj hp
          obtain ⟨nq2, hg2, _, hf2, _⟩ := hpack _ _ h2
          exact ⟨q, nq2, h1, hg2, by rw [hf2]; exact h3⟩
  · -- FirstPrevNone
    intro q nq c nc hq hf hc
    rw [hget] at hq
    by_cases hqv : q = v
    · rw [if_pos hqv] at hq
      cases hq
      simp only [] at hf
      rw [hfc] at hf
      cases hf
      obtain ⟨nc0, hc0⟩ : ∃ nc0, nodes.get? fc = some nc0 := by
        cases hgc : nodes.get? fc with
        | none => rw [List.get?_eq_none] at hgc; omega
        | some x => exact ⟨x, rfl⟩
      obtain ⟨nc2, hgc2, _, _, hpr2⟩ := hpack _ _ hc0
      rw [hgc2] at hc
      cases hc
      rw [hpr2]
      exact hfpn _ _ _ _ (get?_getD hv) hfc hc0
    · rw [if_neg hqv] at hq
      by_cases hqu : q = u
      · rw [if_pos hqu] at hq
        cases hq
        simp only [] at hf
        rw [hnueq] at hf
        have hclt : c < nodes.length := hflt _ _ _ hgu hf
        obtain ⟨nc0, hc0⟩ : ∃ nc0, nodes.get? c = some nc0 := by
          cases hgc : nodes.get? c with
          | none => rw [List.get?_eq_none] at hgc; omega
          | some x => exact ⟨x, rfl⟩
        obtain ⟨nc2, hgc2, _, _, hpr2⟩ := hpack _ _ hc0
        rw [hgc2] at hc
        cases hc
        rw [hpr2]
        exact hfpn _ _ _ _ hgu hf hc0
      · rw [if_neg hqu] at hq
        by_cases hqn : q = nodes.length
        · rw [if_pos hqn] at hq
          cases hq
          rw [hnf] at hf
          cases hf
        · rw [if_neg hqn] at hq
          have hclt : c < nodes.length := hflt _ _ _ hq hf
          obtain ⟨nc0, hc0⟩ : ∃ nc0, nodes.get? c = some nc0 := by
            cases hgc : nodes.get? c with
            | none => rw [List.get?_eq_none] at hgc; omega
            | some x => exact ⟨x, rfl⟩
          obtain ⟨nc2, hgc2, _, _, hpr2⟩ := hpack _ _ hc0
          rw [hgc2] at hc
          cases hc
          rw [hpr2]
          exact hfpn _ _ _ _ hq hf hc0
  · -- ParentLt
    intro i nd q hg hp
    rw [hget] at hg
    by_cases hiv : i = v
    · rw [if_pos hiv] at hg
      cases hg
      simp only [] at hp
      have := hplt _ _ _ (get?_getD hv) hp
      omega
    · rw [if_neg hiv] at hg
      by_cases hiu : i = u
      · rw [if_pos hiu] at hg
        cases hg
        simp only [] at hp
        rw [hnueq] at hp
        have := hplt _ _ _ hgu hp
        omega
      · rw [if_neg hiu] at hg
        by_cases hin : i = nodes.length
        · rw [if_pos hin] at hg
          cases hg
          rw [hnp] at hp
          cases hp
          omega
        · rw [if_neg hin] at hg
          exact hplt _ _ _ hg hp

/-! ### The invariant through the parser's operations -/

/-- `insert_element` preserves the structural invariant. -/
theorem insert_element_inv (st : ParserState) (tag : String) (attrs : List Attribute)
    (h : Inv st) : Inv (insert_element st tag attrs) := by
  obtain ⟨hinc, hflt, hchain, hpar, hprev, hfpn, hplt, hstk, hpos⟩ := h
  have hcurlt : st.stack_of_open_elements.headD 0 < st.nodes.length := by
    cases hs : st.stack_of_open_elements with
    | nil => simpa using hpos
    | cons a rest =>
      exact hstk a (by rw [hs]; exact List.mem_cons_self a rest)
  simp only [insert_element]
  split
  · rename_i fc hfc
    obtain ⟨hco, -⟩ := hchain _ _ (get?_getD hcurlt)
    obtain ⟨l, hl, hr, hnone⟩ := hco fc hfc
    have hls : last_sibling st.nodes st.nodes.length fc = l :=
      last_sibling_spec hinc hr hnone st.nodes.length (by omega)
    rw [hls]
    obtain ⟨c1, c2, c3, c4, c5, c6, c7, clen⟩ :=
      @inv_append_sibling st.nodes (st.stack_of_open_elements.headD 0) l fc
        { create_element_node tag attrs with
          parent := some (st.stack_of_open_elements.headD 0), previous_sibling := some fc }
        hcurlt hfc hr rfl rfl rfl rfl rfl hinc hflt hchain hpar hprev hfpn hplt _ _ rfl rfl
    refine ⟨c1, c2, c3, c4, c5, c6, c7, ?_, ?_⟩
    · intro i hi
      rcases List.mem_cons.1 hi with rfl | hi'
      · exact Nat.lt_of_lt_of_eq (Nat.lt_succ_self _) clen.symm
      · exact Nat.lt_of_lt_of_eq (Nat.lt_succ_of_lt (hstk i hi')) clen.symm
    · exact Nat.lt_of_lt_of_eq (Nat.succ_pos _) clen.symm
  · rename_i hfc
    obtain ⟨c1, c2, c3, c4, c5, c6, c7, clen⟩ :=
      @inv_append_first st.nodes (st.stack_of_open_elements.headD 0)
        { create_element_node tag attrs with
          parent := some (st.stack_of_open_elements.headD 0) }
        hcurlt hfc rfl rfl rfl rfl rfl hinc hflt hchain hpar hprev hfpn hplt _ rfl
    refine ⟨c1, c2, c3, c4, c5, c6, c7, ?_, ?_⟩
    · intro i hi
      rcases List.mem_cons.1 hi with rfl | hi'
      · exact Nat.lt_of_lt_of_eq (Nat.lt_succ_self _) clen.symm
      · exact Nat.lt_of_lt_of_eq (Nat.lt_succ_of_lt (hstk i hi')) clen.symm
    · exact Nat.lt_of_lt_of_eq (Nat.succ_pos _) clen.symm

/-- `insert_char` preserves the structural invariant. -/
theorem insert_char_inv (st : ParserState) (c : Char)
    (h : Inv st) : Inv (insert_char st c) := by
  obtain ⟨hinc, hflt, hchain, hpar, hprev, hfpn, hplt, hstk, hpos⟩ := h
  simp only [insert_char]
  split
  · exact ⟨hinc, hflt, hchain, hpar, hprev, hfpn, hplt, hstk, hpos⟩
  rename_i current hh
  have hcurlt : current < st.nodes.length := by
    cases hs : st.stack_of_open_elements with
    | nil => rw [hs] at hh; cases hh
    | cons a rest =>
      rw [hs] at hh
      cases hh
      exact hstk current (by rw [hs]; exact List.mem_cons_self current rest)
  split
  · rename_i s hk
    obtain ⟨c1, c2, c3, c4, c5, c6, c7, clen⟩ :=
      @inv_set_kind st.nodes current (.text (s.push c)) hcurlt
        hinc hflt hchain hpar hprev hfpn hplt _ rfl
    refine ⟨c1, c2, c3, c4, c5, c6, c7, ?_, ?_⟩
    · intro i hi
      exact Nat.lt_of_lt_of_eq (hstk i hi) clen.symm
    · exact Nat.lt_of_lt_of_eq hpos clen.symm
  · split
    · exact ⟨hinc, hflt, hchain, hpar, hprev, hfpn, hplt, hstk, hpos⟩
    · split
      · rename_i fc hfc
        obtain ⟨c1, c2, c3, c4, c5, c6, c7, clen⟩ :=
          @inv_append_sibling st.nodes current fc fc
            { create_char_node c with parent := some current, previous_sibling := some fc }
            hcurlt hfc (Reaches.refl fc) rfl rfl rfl rfl rfl
            hinc hflt hchain hpar hprev hfpn hplt _ _ rfl rfl
        refine ⟨c1, c2, c3, c4, c5, c6, c7, ?_, ?_⟩
        · intro i hi
          rcases List.mem_cons.1 hi with rfl | hi'
          · exact Nat.lt_of_lt_of_eq (Nat.lt_succ_self _) clen.symm
          · exact Nat.lt_of_lt_of_eq (Nat.lt_succ_of_lt (hstk i hi')) clen.symm
        · exact Nat.lt_of_lt_of_eq (Nat.succ_pos _) clen.symm
      · rename_i hfc
        obtain ⟨c1, c2, c3, c4, c5, c6, c7, clen⟩ :=
          @inv_append_first st.nodes current
            { create_char_node c with parent := some current }
            hcurlt hfc rfl rfl rfl rfl rfl hinc hflt hchain hpar hprev hfpn hplt _ rfl
        refine ⟨c1, c2, c3, c4, c5, c6, c7, ?_, ?_⟩
        · intro i hi
          rcases List.mem_cons.1 hi with rfl | hi'
          · exact Nat.lt_of_lt_of_eq (Nat.lt_succ_self _) clen.symm
          · exact Nat.lt_of_lt_of_eq (Nat.lt_succ_of_lt (hstk i hi')) clen.symm
        · exact Nat.lt_of_lt_of_eq (Nat.succ_pos _) clen.symm

/-- The pop loop only discards stack entries. -/
theorem pop_until_loop_subset (nodes : List Node) (kind : ElementKind) :
    ∀ s : List Nat, ∀ i ∈ pop_until_loop nodes kind s, i ∈ s := by
  intro s
  induction s with
  | nil => intro i hi; simpa [pop_until_loop] using hi
  | cons a rest ih =>
    intro i hi
    simp only [pop_until_loop] at hi
    by_cases ha : element_kind_at nodes a = some kind
    · rw [if_pos ha] at hi
      exact List.mem_cons_of_mem a hi
    · rw [if_neg ha] at hi
      exact List.mem_cons_of_mem a (ih i hi)

/-- A successful `pop_until` preserves the structural invariant. -/
theorem pop_until_inv {st st1 : ParserState} {kind : ElementKind}
    (h : Inv st) (hp : pop_until st kind = some st1) : Inv st1 := by
  obtain ⟨hinc, hflt, hchain, hpar, hprev, hfpn, hplt, hstk, hpos⟩ := h
  simp only [pop_until] at hp
  split at hp
  · cases hp
    exact ⟨hinc, hflt, hchain, hpar, hprev, hfpn, hplt,
      fun i hi => hstk i (pop_until_loop_subset _ _ _ i hi), hpos⟩
  · cases hp

/-- `pop_current_node` preserves the structural invariant in either
component of its result. -/
theorem pop_current_inv {st st1 : ParserState} {kind : ElementKind} {b : Bool}
    (h : Inv st) (hp : pop_current_node st kind = (b, st1)) : Inv st1 := by
  obtain ⟨hinc, hflt, hchain, hpar, hprev, hfpn, hplt, hstk, hpos⟩ := h
  simp only [pop_current_node] at hp
  split at hp
  · cases hp
    exact ⟨hinc, hflt, hchain, hpar, hprev, hfpn, hplt, hstk, hpos⟩
  · rename_i i rest hs
    split at hp
    · cases hp
      exact ⟨hinc, hflt, hchain, hpar, hprev, hfpn, hplt,
        fun j hj => hstk j (by rw [hs]; exact List.mem_cons_of_mem i hj), hpos⟩
    · cases hp
      exact ⟨hinc, hflt, hchain, hpar, hprev, hfpn, hplt, hstk, hpos⟩

/-- The `.done` result of a step is always the unchanged state. -/
theorem step_done {st : ParserState} {tok : HtmlToken} {rest : List HtmlToken}
    {st1 : ParserState} (hs : step st tok rest = .done st1) : st1 = st := by
  unfold step at hs
  repeat' (first | split at hs | simp only [] at hs)
  all_goals (cases hs <;> rfl)

/-- The invariant only inspects the arena and the stack, so it transports
across any state rebuild that keeps both. -/
theorem inv_of_eq {st st' : ParserState} (hn : st'.nodes = st.nodes)
    (hs : st'.stack_of_open_elements = st.stack_of_open_elements)
    (h : Inv st) : Inv st' := by
  obtain ⟨h1, h2, h3, h4, h5, h6, h7, h8, h9⟩ := h
  refine ⟨?_, ?_, ?_, ?_, ?_, ?_, ?_, ?_, ?_⟩ <;> rw [hn] <;> try rw [hs]
  · exact h1
  · exact h2
  · exact h3
  · exact h4
  · exact h5
  · exact h6
  · exact h7
  · exact h8
  · exact h9

/-- `pop_until_inv`, stated for the state as the parser rebuilds it with
fresh modes. -/
theorem pop_until_inv_mode {st st1 : ParserState} {kind : ElementKind}
    (h : Inv st) (hp : pop_until st kind = some st1) (m m' : InsertionMode) :
    Inv { nodes := st1.nodes, mode := m, original_insertion_mode := m',
          stack_of_open_elements := st1.stack_of_open_elements } := by
  have h1 := pop_until_inv h hp
  exact inv_of_eq rfl rfl h1

/-- `pop_current_inv`, stated for the state as the parser rebuilds it with
fresh modes. -/
theorem pop_current_inv_mode {st st1 : ParserState} {kind : ElementKind} {b : Bool}
    (h : Inv st) (hp : pop_current_node st kind = (b, st1)) (m m' : InsertionMode) :
    Inv { nodes := st1.nodes, mode := m, original_insertion_mode := m',
          stack_of_open_elements := st1.stack_of_open_elements } := by
  have h1 := pop_current_inv h hp
  exact inv_of_eq rfl rfl h1

/-- Every continuing step preserves the structural invariant. -/
theorem step_inv {st : ParserState} {tok : HtmlToken} {rest : List HtmlToken}
    {st1 : ParserState} {tokens1 : List HtmlToken}
    (h : Inv st) (hs : step st tok rest = .cont st1 tokens1) : Inv st1 := by
  unfold step at hs
  repeat' (first | split at hs | simp only [] at hs)
  all_goals try (cases hs)
  all_goals first
    | exact h
    | exact insert_element_inv _ _ _ h
    | exact insert_char_inv _ _ h
    | exact pop_until_inv h (by assumption)
    | exact pop_until_inv_mode h (by assumption) _ _
    | (rename_i hpop
       exact pop_current_inv (pop_current_inv_mode h (by assumption) _ _) hpop)
    | (rename_i hpop
       refine pop_until_inv ?_ hpop
       exact inv_of_eq rfl rfl h)

/-- The parse loop preserves the structural invariant up to the returned
window. -/
theorem construct_tree_loop_inv :
    ∀ fuel (st : ParserState) (tokens : List HtmlToken) (st1 : ParserState),
    Inv st → construct_tree_loop fuel st tokens = .ok st1 → Inv st1 := by
  intro fuel
  induction fuel with
  | zero =>
    intro st tokens st1 h hr
    cases hr
  | succ f ih =>
    intro st tokens st1 h hr
    cases tokens with
    | nil =>
      simp only [construct_tree_loop] at hr
      cases hr
      exact h
    | cons tok rest =>
      simp only [construct_tree_loop] at hr
      cases hstep : step st tok rest with
      | cont st2 tokens2 =>
        rw [hstep] at hr
        exact ih _ _ _ (step_inv h hstep) hr
      | done st2 =>
        rw [hstep] at hr
        cases hr
        rw [step_done hstep]
        exact h
      | fatal =>
        rw [hstep] at hr
        cases hr

/-- The fresh window (a lone `Document`) satisfies the invariant. -/
theorem initial_inv : Inv initialState := by
  refine ⟨?_, ?_, ?_, ?_, ?_, ?_, ?_, ?_, ?_⟩
  · intro i j hj
    rw [chainNext] at hj
    match i with
    | 0 => simp [initialState] at hj
    | n + 1 => simp [initialState] at hj
  · intro i nd c hg hc
    match i with
    | 0 =>
      simp only [initialState, List.get?] at hg
      cases hg
      cases hc
    | n + 1 => simp [initialState] at hg
  · intro i nd hg
    match i with
    | 0 =>
      simp only [initialState, List.get?] at hg
      cases hg
      exact ⟨fun c hc => (nomatch hc), fun _ => rfl⟩
    | n + 1 => simp [initialState] at hg
  · intro q nq c hg hc
    match q with
    | 0 =>
      simp only [initialState, List.get?] at hg
      cases hg
      cases hc
    | n + 1 => simp [initialState] at hg
  · intro j nj p hg hp
    match j with
    | 0 =>
      simp only [initialState, List.get?] at hg
      cases hg
      cases hp
    | n + 1 => simp [initialState] at hg
  · intro q nq c nc hg hc
    match q with
    | 0 =>
      simp only [initialState, List.get?] at hg
      cases hg
      cases hc
    | n + 1 => simp [initialState] at hg
  · intro i nd q hg hq
    match i with
    | 0 =>
      simp only [initialState, List.get?] at hg
      cases hg
      cases hq
    | n + 1 => simp [initialState] at hg
  · intro i hi
    simp [initialState] at hi
  · simp [initialState]

/-- C3 (amended): after every insertion performed during `construct_tree`
the children of every node form a singly linked chain rooted at
`first_child` — walking `next_sibling` from `first_child` reaches exactly
the node referenced by `last_child` and no further — and a first child's
`previous_sibling` is unset; but a set `previous_sibling` designates the
parent's *first* child (not the sibling immediately before, which the
counterexample refutes).  Both insertion operations preserve these
properties from any state satisfying the parser's structural invariant,
and every window returned by the parse loop from the fresh window
satisfies them. -/
theorem claim_C3 :
    (∀ st tag attrs, Inv st →
      ChainOk (insert_element st tag attrs).nodes ∧
      PrevOk (insert_element st tag attrs).nodes ∧
      FirstPrevNone (insert_element st tag attrs).nodes) ∧
    (∀ st c, Inv st →
      ChainOk (insert_char st c).nodes ∧
      PrevOk (insert_char st c).nodes ∧
      FirstPrevNone (insert_char st c).nodes) ∧
    (∀ fuel tokens st,
      construct_tree_loop fuel initialState tokens = .ok st →
      ChainOk st.nodes ∧ PrevOk st.nodes ∧ FirstPrevNone st.nodes) := by
  refine ⟨?_, ?_, ?_⟩
  · intro st tag attrs h
    obtain ⟨-, -, h3, -, h5, h6, -, -, -⟩ := insert_element_inv st tag attrs h
    exact ⟨h3, h5, h6⟩
  · intro st c h
    obtain ⟨-, -, h3, -, h5, h6, -, -, -⟩ := insert_char_inv st c h
    exact ⟨h3, h5, h6⟩
  · intro fuel tokens st hr
    obtain ⟨-, -, h3, -, h5, h6, -, -, -⟩ :=
      construct_tree_loop_inv fuel initialState tokens st initial_inv hr
    exact ⟨h3, h5, h6⟩

/-- Witness for C3: the loop component applied to the run on the empty
input, whose window is the bare `Document`. -/
theorem claim_C3_witness :
    ChainOk [({ kind := .document } : Node)] ∧
    PrevOk [({ kind := .document } : Node)] ∧
    FirstPrevNone [({ kind := .document } : Node)] :=
  claim_C3.2.2 40 (tokenize "")
    { nodes := [{ kind := .document }], mode := .beforeHtml,
      original_insertion_mode := .initial, stack_of_open_elements := [] } (by decide)

end Saba
